import Mathlib

/-!
Verification of the BankGPT ingestion pipeline.

Shallow embedding of the repository's four scripts:
`prepare_data.py` (PDF text extraction, page-text cleaning, record creation),
`summarizer.py` (summary pass over JSON records), `store_in_vector_db.py`
(index creation and batched upsert) and `fetch_from_vector_db.py` (query).

Strings are modelled as `List Char`.  The Python regex character classes
`\s`, `\d`, `\w` are modelled by their ASCII fragments, which cover every
character the pipeline manipulates.  External collaborators (the PDF
partitioner, the embedding model, the vector store, the LLM) are modelled
as explicit function parameters or abstract state.
-/

namespace BankGPT

/-- ASCII fragment of the regex class `\s` (space, tab, newline, carriage
return, vertical tab, form feed); also the set stripped by `str.strip()`. -/
def isSpaceP (c : Char) : Bool :=
  c = ' ' || c = '\t' || c = '\n' || c = '\r' || c = '\x0b' || c = '\x0c'

/-- ASCII fragment of the regex class `\d`. -/
def isDigitP (c : Char) : Bool :=
  '0' ≤ c && c ≤ '9'

/-- ASCII fragment of the regex class `\w`. -/
def isWordP (c : Char) : Bool :=
  ('a' ≤ c && c ≤ 'z') || ('A' ≤ c && c ≤ 'Z') || isDigitP c || c = '_'

/-- The box-drawing glyphs removed by `clean_text`'s third substitution,
`re.sub(r'[─═╚╩╝╔╦╗╠╣╬]+', '', text)` (prepare_data.py line 109). -/
def isBorderP (c : Char) : Bool :=
  c = '─' || c = '═' || c = '╚' || c = '╩' || c = '╝' || c = '╔' ||
  c = '╦' || c = '╗' || c = '╠' || c = '╣' || c = '╬'

/-- `re.sub(r'-\n(\w+)', r'\1', text)` (prepare_data.py line 107): a hyphen
followed by a newline followed by a word character has the hyphen-newline
pair deleted.  A match begins with `-` and the kept group consists of word
characters, on which no new match can start, so scanning character by
character is equivalent to the regex's left-to-right non-overlapping
replacement. -/
def sub1 : List Char → List Char
  | [] => []
  | [c] => [c]
  | [c, d] => [c, d]
  | a :: b :: c :: t =>
    if a = '-' ∧ b = '\n' ∧ isWordP c then c :: sub1 t
    else a :: sub1 (b :: c :: t)

/-- `re.sub(r'[ ]{2,}', ' ', text)` (line 108): a maximal run of two or
more spaces becomes one space. -/
def sub2 : List Char → List Char
  | [] => []
  | c :: t =>
    if c = ' ' ∧ t.head? = some ' ' then ' ' :: sub2 (t.dropWhile (fun d => d = ' '))
    else c :: sub2 t
termination_by l => l.length
decreasing_by
· simp only [List.length_cons]
  have := (List.dropWhile_sublist (l := t) (fun d => decide (d = ' '))).length_le
  omega
· simp

/-- `re.sub(r'[─═╚╩╝╔╦╗╠╣╬]+', '', text)` (line 109): border glyphs are
deleted. -/
def sub3 (l : List Char) : List Char :=
  l.filter (fun c => !isBorderP c)

/-- `re.sub(r'\n{2,}', '\n', text)` (line 111): a maximal run of two or
more newlines becomes one newline. -/
def sub5 : List Char → List Char
  | [] => []
  | c :: t =>
    if c = '\n' ∧ t.head? = some '\n' then '\n' :: sub5 (t.dropWhile (fun d => d = '\n'))
    else c :: sub5 t
termination_by l => l.length
decreasing_by
· simp only [List.length_cons]
  have := (List.dropWhile_sublist (l := t) (fun d => decide (d = '\n'))).length_le
  omega
· simp

/-- The optional `(Page|PAGE)` group of the page-number pattern: consume a
literal `Page` or `PAGE` prefix when present.  The two alternatives differ
in their second character, so at most one applies and the alternation
order of the regex is immaterial. -/
def stripLabel (l : List Char) : Option (List Char × List Char) :=
  if l.take 4 = ['P', 'a', 'g', 'e'] ∨ l.take 4 = ['P', 'A', 'G', 'E'] then
    some (l.take 4, l.drop 4)
  else none

/-- Split a list just before its last newline: `some (a, b)` with
`w = a ++ b`, `b` beginning with the last `'\n'` of `w`. -/
def splitLastNl : List Char → Option (List Char × List Char)
  | [] => none
  | c :: t =>
    match splitLastNl t with
    | some (a, b) => some (c :: a, b)
    | none => if c = '\n' then some ([], c :: t) else none

/-- Tail of the page-number pattern after the leading `\s*` and the
optional label: greedy `\s*`, then `\d+`, then `\s*$`.  The trailing `\s*`
backtracks so that `$` (end of string, or position before a `'\n'` under
`re.MULTILINE`) holds: greedily it consumes everything when the string
ends in the whitespace run, and otherwise stops just before the last
newline of the run.  Returns `(consumed, rest)`. -/
def matchTail (w1 lab t2 : List Char) : Option (List Char × List Char) :=
  if (t2.dropWhile isSpaceP).takeWhile isDigitP = [] then none
  else if ((t2.dropWhile isSpaceP).dropWhile isDigitP).dropWhile isSpaceP = [] then
    some (w1 ++ lab ++ t2, [])
  else
    match splitLastNl (((t2.dropWhile isSpaceP).dropWhile isDigitP).takeWhile isSpaceP) with
    | some (a, b) =>
      some (w1 ++ lab ++ t2.takeWhile isSpaceP ++ (t2.dropWhile isSpaceP).takeWhile isDigitP ++ a,
            b ++ ((t2.dropWhile isSpaceP).dropWhile isDigitP).dropWhile isSpaceP)
    | none => none

/-- One attempt of the pattern `\s*(Page|PAGE)?\s*\d+\s*$` at a
line-start position of `l` (the `^` anchor of line 110's
`re.sub(..., flags=re.MULTILINE)`).  Backtracking of the leading `\s*`
or of the optional group never rescues a failed attempt, because `\d+`
can start neither on a whitespace character nor on `'P'`; so the greedy
reading below is the full backtracking semantics. -/
def matchPat4 (l : List Char) : Option (List Char × List Char) :=
  match stripLabel (l.dropWhile isSpaceP) with
  | some (lab, t2) => matchTail (l.takeWhile isSpaceP) lab t2
  | none => matchTail (l.takeWhile isSpaceP) [] (l.dropWhile isSpaceP)

theorem splitLastNl_append {w a b : List Char} (h : splitLastNl w = some (a, b)) :
    w = a ++ b := by
  induction w generalizing a b with
  | nil => simp [splitLastNl] at h
  | cons c t ih =>
    simp only [splitLastNl] at h
    rcases hs : splitLastNl t with - | ⟨a', b'⟩ <;> rw [hs] at h
    · by_cases hc : c = '\n'
      · subst hc
        simp only [if_pos rfl, Option.some_inj, Prod.mk.injEq] at h
        obtain ⟨rfl, rfl⟩ := h
        simp
      · simp [hc] at h
    · simp only [Option.some_inj, Prod.mk.injEq] at h
      obtain ⟨rfl, rfl⟩ := h
      simpa using ih hs

theorem splitLastNl_head {w a b : List Char} (h : splitLastNl w = some (a, b)) :
    ∃ b', b = '\n' :: b' := by
  induction w generalizing a b with
  | nil => simp [splitLastNl] at h
  | cons c t ih =>
    simp only [splitLastNl] at h
    rcases hs : splitLastNl t with - | ⟨a', b'⟩ <;> rw [hs] at h
    · by_cases hc : c = '\n'
      · subst hc
        simp at h
        exact ⟨t, h.2.symm⟩
      · simp [hc] at h
    · simp only [Option.some_inj, Prod.mk.injEq] at h
      obtain ⟨rfl, rfl⟩ := h
      exact ih hs

theorem stripLabel_append {t1 lab t2 : List Char} (h : stripLabel t1 = some (lab, t2)) :
    t1 = lab ++ t2 ∧ (lab = ['P', 'a', 'g', 'e'] ∨ lab = ['P', 'A', 'G', 'E']) := by
  unfold stripLabel at h
  by_cases hc : t1.take 4 = ['P', 'a', 'g', 'e'] ∨ t1.take 4 = ['P', 'A', 'G', 'E']
  · rw [if_pos hc] at h
    simp only [Option.some_inj, Prod.mk.injEq] at h
    obtain ⟨rfl, rfl⟩ := h
    exact ⟨(List.take_append_drop 4 t1).symm, hc⟩
  · rw [if_neg hc] at h
    exact absurd h (by simp)

theorem matchTail_append {w1 lab t2 cs r : List Char}
    (h : matchTail w1 lab t2 = some (cs, r)) :
    cs ++ r = w1 ++ lab ++ t2 ∧ (t2.dropWhile isSpaceP).takeWhile isDigitP ≠ [] := by
  unfold matchTail at h
  by_cases h1 : (t2.dropWhile isSpaceP).takeWhile isDigitP = []
  · simp [h1] at h
  · refine ⟨?_, h1⟩
    rw [if_neg h1] at h
    by_cases h2 : ((t2.dropWhile isSpaceP).dropWhile isDigitP).dropWhile isSpaceP = []
    · rw [if_pos h2] at h
      simp only [Option.some_inj, Prod.mk.injEq] at h
      obtain ⟨rfl, rfl⟩ := h
      simp
    · rw [if_neg h2] at h
      rcases hs : splitLastNl (((t2.dropWhile isSpaceP).dropWhile isDigitP).takeWhile isSpaceP)
        with - | ⟨a, b⟩ <;> rw [hs] at h
      · exact absurd h (by simp)
      · simp only [Option.some_inj, Prod.mk.injEq] at h
        obtain ⟨rfl, rfl⟩ := h
        have hab := splitLastNl_append hs
        calc (w1 ++ lab ++ t2.takeWhile isSpaceP ++ (t2.dropWhile isSpaceP).takeWhile isDigitP
                ++ a) ++ (b ++ ((t2.dropWhile isSpaceP).dropWhile isDigitP).dropWhile isSpaceP)
            = w1 ++ lab ++ (t2.takeWhile isSpaceP ++ ((t2.dropWhile isSpaceP).takeWhile isDigitP
                ++ ((a ++ b) ++ ((t2.dropWhile isSpaceP).dropWhile isDigitP).dropWhile
                  isSpaceP))) := by simp [List.append_assoc]
          _ = w1 ++ lab ++ t2 := by
              rw [← hab, List.takeWhile_append_dropWhile, List.takeWhile_append_dropWhile,
                List.takeWhile_append_dropWhile]

theorem matchPat4_append {l cs r : List Char} (h : matchPat4 l = some (cs, r)) :
    cs ++ r = l := by
  unfold matchPat4 at h
  rcases hs : stripLabel (l.dropWhile isSpaceP) with - | ⟨lab, t2⟩ <;> rw [hs] at h
  · have := (matchTail_append h).1
    rw [this]
    simpa using List.takeWhile_append_dropWhile isSpaceP l
  · have := (matchTail_append h).1
    obtain ⟨ht1, -⟩ := stripLabel_append hs
    rw [this, List.append_assoc, ← ht1, List.takeWhile_append_dropWhile]

theorem matchTail_cs_ne_nil {w1 lab t2 cs r : List Char}
    (h : matchTail w1 lab t2 = some (cs, r)) : cs ≠ [] := by
  unfold matchTail at h
  by_cases h1 : (t2.dropWhile isSpaceP).takeWhile isDigitP = []
  · simp [h1] at h
  · rw [if_neg h1] at h
    have ht2 : t2 ≠ [] := by
      intro he
      exact h1 (by simp [he])
    by_cases h2 : ((t2.dropWhile isSpaceP).dropWhile isDigitP).dropWhile isSpaceP = []
    · rw [if_pos h2] at h
      simp only [Option.some_inj, Prod.mk.injEq] at h
      obtain ⟨rfl, rfl⟩ := h
      simp [ht2]
    · rw [if_neg h2] at h
      rcases hs : splitLastNl (((t2.dropWhile isSpaceP).dropWhile isDigitP).takeWhile isSpaceP)
        with - | ⟨a, b⟩ <;> rw [hs] at h
      · exact absurd h (by simp)
      · simp only [Option.some_inj, Prod.mk.injEq] at h
        obtain ⟨rfl, rfl⟩ := h
        simp [h1]

theorem matchPat4_cs_ne_nil {l cs r : List Char} (h : matchPat4 l = some (cs, r)) :
    cs ≠ [] := by
  unfold matchPat4 at h
  rcases hs : stripLabel (l.dropWhile isSpaceP) with - | ⟨lab, t2⟩ <;> rw [hs] at h <;>
    exact matchTail_cs_ne_nil h

theorem matchPat4_rest_length {l cs r : List Char} (h : matchPat4 l = some (cs, r)) :
    r.length < l.length := by
  have happ := matchPat4_append h
  have hne := matchPat4_cs_ne_nil h
  have : cs.length + r.length = l.length := by
    rw [← happ, List.length_append]
  have hcs : 0 < cs.length := List.length_pos.mpr hne
  omega

/-- The scan of `re.sub(r'^\s*(Page|PAGE)?\s*\d+\s*$', '', text, flags=re.MULTILINE)`
(prepare_data.py line 110).  `bol` records whether the current position is a
line start (position 0, or preceded by `'\n'`); the pattern is anchored by
`^`, so it is attempted only there.  On a match the matched characters are
dropped and scanning resumes after them; otherwise one character is copied. -/
def go4 (bol : Bool) (l : List Char) : List Char :=
  match l with
  | [] => []
  | c :: t =>
    if bol then
      match h : matchPat4 (c :: t) with
      | some (cs, r) => go4 (cs.getLast? = some '\n') r
      | none => c :: go4 (c = '\n') t
    else c :: go4 (c = '\n') t
termination_by l.length
decreasing_by
· exact matchPat4_rest_length h
· simp
· simp

/-- Step 4 of `clean_text`: the full multiline substitution. -/
def sub4 (l : List Char) : List Char := go4 true l

/-- `re.sub(r'\s+', ' ', text)` (line 112): every maximal whitespace run
becomes one space. -/
def cws : List Char → List Char
  | [] => []
  | c :: t =>
    if isSpaceP c then ' ' :: cws (t.dropWhile isSpaceP)
    else c :: cws t
termination_by l => l.length
decreasing_by
· simp only [List.length_cons]
  have := (List.dropWhile_sublist (l := t) isSpaceP).length_le
  omega
· simp

/-- `str.strip()` from the right. -/
def rstripP (l : List Char) : List Char := (l.reverse.dropWhile isSpaceP).reverse

/-- `text.strip()` (line 113). -/
def stripP (l : List Char) : List Char := rstripP (l.dropWhile isSpaceP)

/-- `clean_text` (prepare_data.py lines 106-113): the six substitutions in
source order followed by the final strip. -/
def cleanChars (l : List Char) : List Char :=
  stripP (cws (sub5 (sub4 (sub3 (sub2 (sub1 l))))))

/-- `clean_text` on Lean strings. -/
def clean_text (s : String) : String := String.mk (cleanChars s.data)

/-! ## prepare_data.py: extraction and record creation -/

/-- One element returned by the external PDF partitioner: its page number
metadata (absent when unknown) and its text fragment. -/
structure PdfElement where
  page_number : Option Nat
  text : String

/-- `el.metadata.page_number or 0` (line 71): `None` (and `0` itself, both
falsy) map to `0`. -/
def pageNumberOrZero (e : PdfElement) : Nat :=
  match e.page_number with
  | none => 0
  | some n => n

/-- Appending one stripped text fragment to the bucket of page `p`
(line 78). -/
def addToPage (acc : List (Nat × List String)) (p : Nat) (s : String) :
    List (Nat × List String) :=
  acc.map (fun kv => if kv.fst = p then (kv.fst, kv.snd ++ [s]) else kv)

/-- A Python dict in insertion order, keyed by page number: a missing key
is appended at the end with an empty bucket (lines 72-73). -/
def insertKey (acc : List (Nat × List String)) (p : Nat) : List (Nat × List String) :=
  if (acc.map Prod.fst).contains p then acc else acc ++ [(p, [])]

/-- One iteration of the accumulation loop of `extract_pdf_text_by_page`
(lines 70-78): ensure the page's bucket exists, then append the stripped
text when `el.text` is truthy and its strip is truthy. -/
def collectStep (acc : List (Nat × List String)) (e : PdfElement) : List (Nat × List String) :=
  if e.text.data ≠ [] ∧ stripP e.text.data ≠ [] then
    addToPage (insertKey acc (pageNumberOrZero e)) (pageNumberOrZero e)
      (String.mk (stripP e.text.data))
  else insertKey acc (pageNumberOrZero e)

/-- The accumulation loop of `extract_pdf_text_by_page` (lines 69-78). -/
def collectPages : List PdfElement → List (Nat × List String) → List (Nat × List String)
  | [], acc => acc
  | e :: es, acc => collectPages es (collectStep acc e)

/-- Key order used by `sorted(pagewise_text.items())`: the keys are
pairwise distinct, so sorting the pairs lexicographically is sorting by
key. -/
def pageLE (a b : Nat × List String) : Prop := a.fst ≤ b.fst

instance : DecidableRel pageLE := fun a b => Nat.decLe a.fst b.fst

instance : IsTotal (Nat × List String) pageLE :=
  ⟨fun a b => Nat.le_total a.fst b.fst⟩

instance : IsTrans (Nat × List String) pageLE :=
  ⟨fun _ _ _ hab hbc => Nat.le_trans hab hbc⟩

/-- `extract_pdf_text_by_page` (lines 52-83) for a successful partition:
collect the page buckets, sort by page number, and newline-join each
bucket (line 81). -/
def extract_pdf_text_by_page (elements : List PdfElement) : List (Nat × String) :=
  ((collectPages elements []).insertionSort pageLE).map
    (fun kv => (kv.fst, String.intercalate "\n" kv.snd))

/-- One record of the per-document JSON array (§3 of the spec): optional
fields are absent until their pass runs. -/
structure PageEntry where
  page_num : Nat
  content : String
  year : Int
  company : String
  clean_content : Option String
  summarized : Option String
deriving DecidableEq

/-- The record construction of `create_json` (lines 134-142). -/
def create_json_records (year : Int) (company : String) (data : List (Nat × String)) :
    List PageEntry :=
  data.map (fun pt =>
    { page_num := pt.fst, content := pt.snd, year := year, company := company,
      clean_content := none, summarized := none })

/-- `clean_pdf_json_content` (lines 88-124): every record (whose `content`
is a string, always true in this typed model) gets
`clean_content = clean_text content`. -/
def clean_pdf_json_content (data : List PageEntry) : List PageEntry :=
  data.map (fun item => { item with clean_content := some (clean_text item.content) })

/-- `os.path.basename` for POSIX paths: the component after the last
separator. -/
def basenameChars (p : List Char) : List Char :=
  (p.reverse.takeWhile (fun c => c ≠ '/')).reverse

/-- `name.split(".")[0]` (lines 148 and 167): everything before the first
dot. -/
def firstDotSegment (f : List Char) : List Char :=
  f.takeWhile (fun c => c ≠ '.')

/-- The company name computed by `process_all` (line 167):
`os.path.basename(path).split(".")[0]`. -/
def companyOfPath (path : String) : String :=
  String.mk (firstDotSegment (basenameChars path.data))

/-- Modelled from the spec: the "filename stem", i.e. "the source file name
with its extension removed" — the base name up to its last dot (the whole
name when it has no dot).  This is the spec's wording, written here for
comparison with `companyOfPath`, which the source computes differently. -/
def stemSpec (f : List Char) : List Char :=
  if f.contains '.' then ((f.reverse.dropWhile (fun c => c ≠ '.')).tail).reverse else f

/-- One document's pass through `process_all` (lines 160-169): extraction,
record construction with the company name of line 167, then the cleaning
pass applied by `create_json` (line 144). -/
def process_document (path : String) (year : Int) (elements : List PdfElement) :
    List PageEntry :=
  clean_pdf_json_content
    (create_json_records year (companyOfPath path) (extract_pdf_text_by_page elements))

/-- The filesystem view seen by `get_pdf_paths`: whether the dataset
directory exists, and the names it contains. -/
structure DirListing where
  dirExists : Bool
  entries : List String

/-- `f.lower().endswith(".pdf")` (line 44), ASCII lowering. -/
def hasPdfExt (f : String) : Bool :=
  [ '.', 'p', 'd', 'f' ].isSuffixOf (f.data.map Char.toLower)

/-- `get_pdf_paths` (lines 34-50): `FileNotFoundError` when the directory
does not exist; otherwise the sorted matching paths together with the
flag of the no-PDF warning printed on line 48.  Path join and
lexicographic sort are over plain strings. -/
def get_pdf_paths (dataset_dir : String) (fs : DirListing) :
    Except String (List String × Bool) :=
  if !fs.dirExists then .error "DirectoryNotFound"
  else
    let pdfs := (fs.entries.filter hasPdfExt).map (fun f => dataset_dir ++ "/" ++ f)
    .ok (pdfs.insertionSort (· ≤ ·), pdfs.isEmpty)

/-! ## summarizer.py -/

/-- The sentinel of summarizer.py line 61 (and of the system prompt's
rule 3). -/
def sentinel : String := "No substantive content available to summarize."

/-- One loop step of `summarize_json_file` (lines 55-61): the LLM call is
an opaque function.  `entry.get("clean_content", "")` reads the absent
field as `""`; a truthy `input_text.strip()` selects the model call,
otherwise the sentinel is stored. -/
def summarizeEntry (llm : String → String) (e : PageEntry) : PageEntry :=
  let input_text := e.clean_content.getD ""
  if stripP input_text.data ≠ [] then { e with summarized := some (llm input_text) }
  else { e with summarized := some sentinel }

/-- `summarize_json_file` (lines 44-65) on the decoded record list. -/
def summarize_json_file (llm : String → String) (data : List PageEntry) : List PageEntry :=
  data.map (summarizeEntry llm)

/-! ## store_in_vector_db.py -/

/-- What pinecone's `create_index` receives (name aside). -/
structure IndexSpec where
  dimension : Nat
  metric : String
deriving DecidableEq

/-- `create_index_if_not_exists` (lines 19-36) over an abstract index
listing: when `index_name` is absent it creates the index with the
hard-coded `dimension=384, metric="cosine"` of lines 25-26 — the
`dimension` parameter is not used. -/
def create_index_if_not_exists (indexes : List (String × IndexSpec)) (index_name : String)
    (dimension : Nat) : List (String × IndexSpec) :=
  if (indexes.map Prod.fst).contains index_name then indexes
  else indexes ++ [(index_name, { dimension := 384, metric := "cosine" })]

/-- The dimension argument passed by `upsert_to_pinecone` on line 64. -/
def upsertDimensionArgument : Nat := 348

/-- The batching loop of `upsert_to_pinecone` (lines 89-94):
`for i in range(0, len(vectors), 100): index.upsert(vectors[i:i+100])`.
Returns the successive batches, i.e. the argument of each upsert call in
order. -/
def upsertBatches : List α → List (List α)
  | [] => []
  | v :: t => ((v :: t).take 100) :: upsertBatches ((v :: t).drop 100)
termination_by l => l.length
decreasing_by
simp only [List.length_drop, List.length_cons]
omega

/-! ## fetch_from_vector_db.py -/

/-- One ranked match of a pinecone query response. -/
structure QueryMatch where
  id : String
  score : Int
  company : String
  year : Int
  page : Nat
  content : String
deriving DecidableEq

/-- The query response: `results.get("matches", [])` reads an absent
`"matches"` key as `[]` (the key is called `matchList` here because
`matches` is a Lean keyword). -/
structure QueryResponse where
  matchList : Option (List QueryMatch)

/-- `query_pinecone` (fetch_from_vector_db.py lines 62-110, the second,
effective definition): the embedding of the question and the index query
are external calls that may fail; the whole body is a
`try ... except: return []`. -/
def query_pinecone (encodeQuery : Except String (List Int))
    (runQuery : List Int → Except String QueryResponse) : List QueryMatch :=
  match encodeQuery with
  | .error _ => []
  | .ok qv =>
    match runQuery qv with
    | .error _ => []
    | .ok results => results.matchList.getD []

/-! ## Token and line decompositions used in the cleaning proofs -/

/-- The maximal whitespace-separated non-whitespace runs of a string, in
order. -/
def tokensOf : List Char → List (List Char)
  | [] => []
  | c :: t =>
    if isSpaceP c then tokensOf t
    else (c :: t.takeWhile (fun d => !isSpaceP d)) :: tokensOf (t.dropWhile (fun d => !isSpaceP d))
termination_by l => l.length
decreasing_by
· simp
· simp only [List.length_cons]
  have := (List.dropWhile_sublist (l := t) (fun d => !isSpaceP d)).length_le
  omega

/-- Words joined by single spaces. -/
def joinTokens : List (List Char) → List Char
  | [] => []
  | [t] => t
  | t :: ts => t ++ ' ' :: joinTokens ts

/-- Split on newlines; a string with `k` newlines has `k + 1` lines. -/
def linesOf : List Char → List (List Char)
  | [] => [[]]
  | c :: t =>
    if c = '\n' then [] :: linesOf t
    else
      match linesOf t with
      | L :: rest => (c :: L) :: rest
      | [] => [[c]]

/-! # Theorems -/

/-! ## Generic scanning lemmas -/

theorem takeWhile_append_pos {α : Type} {p : α → Bool} {a : List α} (h : ∀ c ∈ a, p c)
    (b : List α) : (a ++ b).takeWhile p = a ++ b.takeWhile p := by
  induction a with
  | nil => rfl
  | cons x t ih => simp_all [List.takeWhile_cons]

theorem dropWhile_append_pos {α : Type} {p : α → Bool} {a : List α} (h : ∀ c ∈ a, p c)
    (b : List α) : (a ++ b).dropWhile p = b.dropWhile p := by
  induction a with
  | nil => rfl
  | cons x t ih => simp_all [List.dropWhile_cons]

theorem stripP_eq_nil {l : List Char} (h : ∀ c ∈ l, isSpaceP c) : stripP l = [] := by
  unfold stripP rstripP
  rw [List.dropWhile_eq_nil_iff.mpr h]
  rfl

/-! ## Claim C2: border-only input cleans to the empty string -/

theorem sub1_eq_self_of_no_newline {l : List Char} (h : '\n' ∉ l) : sub1 l = l := by
  induction l using sub1.induct with
  | case1 => rfl
  | case2 => rfl
  | case3 => rfl
  | case4 a b c t hcond ih =>
    exact absurd (hcond.2.1 ▸ List.mem_cons_of_mem a (List.mem_cons_self b (c :: t))) h
  | case5 a b c t hcond ih =>
    rw [sub1, if_neg hcond, ih (fun hm => h (List.mem_cons_of_mem a hm))]

theorem sub2_eq_self_of_no_space {l : List Char} (h : ' ' ∉ l) : sub2 l = l := by
  induction l using sub2.induct with
  | case1 => simp [sub2]
  | case2 c t hcond ih =>
    exact absurd (hcond.1 ▸ List.mem_cons_self c t) h
  | case3 c t hcond ih =>
    rw [sub2, if_neg hcond, ih (fun hm => h (List.mem_cons_of_mem c hm))]

theorem sub3_eq_nil {l : List Char} (h : ∀ c ∈ l, isBorderP c) : sub3 l = [] := by
  unfold sub3
  exact List.filter_eq_nil_iff.mpr (fun a ha => by simp [h a ha])

/-- C2: for every input string consisting only of the box-drawing border
glyphs stripped by the cleaner (the character class of prepare_data.py
line 109), `clean_text` returns the empty string. -/
theorem claim_C2 (l : List Char) (h : ∀ c ∈ l, isBorderP c) : cleanChars l = [] := by
  have h1 : sub1 l = l :=
    sub1_eq_self_of_no_newline (fun hm => absurd (h _ hm) (by decide))
  have h2 : sub2 l = l :=
    sub2_eq_self_of_no_space (fun hm => absurd (h _ hm) (by decide))
  have h3 : sub3 l = [] := sub3_eq_nil h
  rw [cleanChars, h1, h2, h3]
  simp [sub4, go4, sub5, cws, stripP, rstripP]

theorem claim_C2_witness :
    (∀ c ∈ ("═╔╝══" : String).data, isBorderP c) ∧ cleanChars ("═╔╝══" : String).data = [] :=
  ⟨by decide, claim_C2 _ (by decide)⟩

/-! ## Claim C3: empty clean content always gets the sentinel summary -/

theorem summarizeEntry_clean_content (llm : String → String) (e : PageEntry) :
    (summarizeEntry llm e).clean_content = e.clean_content := by
  unfold summarizeEntry
  by_cases hc : stripP (e.clean_content.getD "").data ≠ [] <;> simp [hc]

/-- C3: every record processed by the summarization pass whose
`clean_content` is empty, whitespace-only or absent receives exactly the
sentinel string as `summarized` — never an empty string, null, or an unset
field. -/
theorem claim_C3 (llm : String → String) (data : List PageEntry) (e : PageEntry)
    (he : e ∈ summarize_json_file llm data)
    (hws : ∀ c ∈ (e.clean_content.getD "").data, isSpaceP c) :
    e.summarized = some sentinel ∧ sentinel ≠ "" := by
  obtain ⟨e0, -, rfl⟩ := List.mem_map.mp he
  rw [summarizeEntry_clean_content] at hws
  have h0 : stripP (e0.clean_content.getD "").data = [] := stripP_eq_nil hws
  refine ⟨?_, by decide⟩
  simp [summarizeEntry, h0]

theorem claim_C3_witness :
    (∀ c ∈ ((summarizeEntry (fun _ => "sum")
        { page_num := 1, content := "", year := 2024, company := "HDFC",
          clean_content := some "  ", summarized := none }).clean_content.getD "").data,
        isSpaceP c) ∧
    (summarizeEntry (fun _ => "sum")
        { page_num := 1, content := "", year := 2024, company := "HDFC",
          clean_content := some "  ", summarized := none }).summarized = some sentinel := by
  refine ⟨by decide, ?_⟩
  refine (claim_C3 (fun _ => "sum")
    [{ page_num := 1, content := "", year := 2024, company := "HDFC",
       clean_content := some "  ", summarized := none }] _ ?_ (by decide)).1
  simp [summarize_json_file]

/-! ## Claim C5: upsert batching -/

theorem upsertBatches_flatten {α : Type} (l : List α) : (upsertBatches l).flatten = l := by
  induction l using upsertBatches.induct with
  | case1 => simp [upsertBatches]
  | case2 v t ih =>
    rw [upsertBatches]
    simp only [List.flatten_cons, ih]
    exact List.take_append_drop 100 (v :: t)

theorem upsertBatches_le {α : Type} (l : List α) : ∀ b ∈ upsertBatches l, b.length ≤ 100 := by
  induction l using upsertBatches.induct with
  | case1 => simp [upsertBatches]
  | case2 v t ih =>
    rw [upsertBatches]
    intro b hb
    rcases List.mem_cons.mp hb with rfl | hb
    · rw [List.length_take]
      exact Nat.min_le_left 100 _
    · exact ih b hb

theorem upsertBatches_length {α : Type} (l : List α) :
    (upsertBatches l).length = (l.length + 99) / 100 := by
  induction l using upsertBatches.induct with
  | case1 => simp [upsertBatches]
  | case2 v t ih =>
    rw [upsertBatches]
    simp only [List.length_cons, List.length_drop] at ih ⊢
    rw [ih]
    rcases le_or_lt (t.length + 1) 100 with hle | hlt
    · have h0 : t.length + 1 - 100 + 99 = 99 := by omega
      have h99 : (99 : Nat) / 100 = 0 := Nat.div_eq_of_lt (by omega)
      have hr : (t.length + 1 + 99) / 100 = 1 := Nat.div_eq_of_lt_le (by omega) (by omega)
      rw [h0, h99, hr]
    · have h1 : t.length + 1 - 100 + 99 = t.length := by omega
      have h2 : t.length + 1 + 99 = t.length + 100 := by omega
      rw [h1, h2, Nat.add_div_right _ (by omega)]

/-- C5: a run of the upsert pipeline that embedded `N` vectors issues
exactly `⌈N / 100⌉ = (N + 99) / 100` upsert calls, each carrying at most
100 vectors, and the calls together carry all `N` vectors in order. -/
theorem claim_C5 (α : Type) (vectors : List α) :
    (upsertBatches vectors).length = (vectors.length + 99) / 100 ∧
    (∀ b ∈ upsertBatches vectors, b.length ≤ 100) ∧
    (upsertBatches vectors).flatten = vectors :=
  ⟨upsertBatches_length vectors, upsertBatches_le vectors, upsertBatches_flatten vectors⟩

theorem claim_C5_witness :
    (upsertBatches [0, 1, 2]).length = 1 ∧ (upsertBatches [0, 1, 2]).flatten = [0, 1, 2] := by
  obtain ⟨h1, -, h3⟩ := claim_C5 Nat [0, 1, 2]
  exact ⟨by rw [h1]; rfl, h3⟩

/-! ## Claim C6: page numbers are distinct and ascending -/

theorem addToPage_keys (acc : List (Nat × List String)) (p : Nat) (s : String) :
    (addToPage acc p s).map Prod.fst = acc.map Prod.fst := by
  unfold addToPage
  rw [List.map_map]
  refine List.map_congr_left (fun kv _ => ?_)
  by_cases hkv : kv.fst = p <;> simp [hkv]

theorem insertKey_keys_nodup {acc : List (Nat × List String)} (h : (acc.map Prod.fst).Nodup)
    (p : Nat) : ((insertKey acc p).map Prod.fst).Nodup := by
  unfold insertKey
  by_cases hc : (acc.map Prod.fst).contains p = true
  · rw [if_pos hc]
    exact h
  · have hp : p ∉ acc.map Prod.fst := by simpa using hc
    rw [if_neg hc, List.map_append]
    simp [List.nodup_append, h, hp, List.disjoint_singleton]

theorem collectStep_keys_nodup {acc : List (Nat × List String)} (h : (acc.map Prod.fst).Nodup)
    (e : PdfElement) : ((collectStep acc e).map Prod.fst).Nodup := by
  unfold collectStep
  split
  · rw [addToPage_keys]
    exact insertKey_keys_nodup h _
  · exact insertKey_keys_nodup h _

theorem collectPages_keys_nodup (es : List PdfElement) (acc : List (Nat × List String))
    (h : (acc.map Prod.fst).Nodup) : ((collectPages es acc).map Prod.fst).Nodup := by
  induction es generalizing acc with
  | nil => exact h
  | cons e es ih => exact ih _ (collectStep_keys_nodup h e)

/-- C6: for every document processed by the batch file pipeline, the
`page_num` values of the resulting record collection are pairwise distinct
and strictly ascending. -/
theorem claim_C6 (path : String) (year : Int) (elements : List PdfElement) :
    ((process_document path year elements).map PageEntry.page_num).Pairwise (· < ·) := by
  have hmap : (process_document path year elements).map PageEntry.page_num
      = ((collectPages elements []).insertionSort pageLE).map Prod.fst := by
    simp [process_document, clean_pdf_json_content, create_json_records,
      extract_pdf_text_by_page, List.map_map, Function.comp_def]
  rw [hmap]
  have hsorted := List.sorted_insertionSort pageLE (collectPages elements [])
  have hperm := List.perm_insertionSort pageLE (collectPages elements [])
  have h1 : ((collectPages elements []).map Prod.fst).Nodup :=
    collectPages_keys_nodup elements [] (by simp)
  have hnodup : (((collectPages elements []).insertionSort pageLE).map Prod.fst).Nodup :=
    ((hperm.map Prod.fst).nodup_iff).mpr h1
  have hle : (((collectPages elements []).insertionSort pageLE).map Prod.fst).Pairwise
      (· ≤ ·) :=
    List.Pairwise.map Prod.fst (fun a b hab => hab) hsorted
  exact (hle.and hnodup).imp (fun hab => Nat.lt_of_le_of_ne hab.1 hab.2)

/-! ## Claim C7: directory discovery errors -/

/-- C7: document discovery fails with the directory-not-found condition
exactly when the dataset directory does not exist; an existing directory
without PDF entries yields the empty list together with the printed
warning (modelled as the Boolean flag), not an error. -/
theorem claim_C7 (dataset_dir : String) (fs : DirListing) :
    ((∃ msg, get_pdf_paths dataset_dir fs = .error msg) ↔ fs.dirExists = false) ∧
    (fs.dirExists = true → fs.entries.filter hasPdfExt = [] →
      get_pdf_paths dataset_dir fs = .ok ([], true)) := by
  constructor
  · constructor
    · rintro ⟨msg, hmsg⟩
      by_contra hne
      have hex : fs.dirExists = true := by
        revert hne
        cases fs.dirExists <;> simp
      simp [get_pdf_paths, hex] at hmsg
    · intro hfalse
      exact ⟨"DirectoryNotFound", by simp [get_pdf_paths, hfalse]⟩
  · intro htrue hfilter
    simp [get_pdf_paths, htrue, hfilter]

theorem claim_C7_witness :
    (DirListing.mk true ["notes.txt"]).dirExists = true ∧
    ["notes.txt"].filter hasPdfExt = ([] : List String) ∧
    get_pdf_paths "dataset/pdfs" (DirListing.mk true ["notes.txt"]) = .ok ([], true) :=
  ⟨rfl, by decide,
    (claim_C7 "dataset/pdfs" (DirListing.mk true ["notes.txt"])).2 rfl (by decide)⟩

/-! ## Claim C8: query failures yield an empty result, never an exception -/

/-- C8: `query_pinecone` returns the empty list whenever the embedding
call or the vector-store query fails; no failure escapes to the caller
(the function is total and its only outputs are match lists). -/
theorem claim_C8 (encodeQuery : Except String (List Int))
    (runQuery : List Int → Except String QueryResponse) :
    (∀ err, encodeQuery = .error err → query_pinecone encodeQuery runQuery = []) ∧
    (∀ v err, encodeQuery = .ok v → runQuery v = .error err →
      query_pinecone encodeQuery runQuery = []) := by
  constructor
  · rintro err rfl
    rfl
  · rintro v err rfl hq
    simp [query_pinecone, hq]

theorem claim_C8_witness :
    ((Except.error "embedding failed" : Except String (List Int)) = .error "embedding failed") ∧
    query_pinecone (.error "embedding failed") (fun _ => .error "query failed") = [] :=
  ⟨rfl, (claim_C8 _ _).1 "embedding failed" rfl⟩

/-! ## Claim C9: company names versus filename stems -/

/-- C9 (amended): every record produced for a document carries as
`company` the base name's segment before its first dot; this equals the
filename stem (base name minus extension) exactly when the base name
contains a single dot, and differs on names with several dots. -/
theorem claim_C9 (path : String) (year : Int) (elements : List PdfElement) :
    (∀ r ∈ process_document path year elements, r.company = companyOfPath path) ∧
    (∀ a b : List Char, a.contains '.' = false → b.contains '.' = false →
      stemSpec (a ++ '.' :: b) = a ∧ firstDotSegment (a ++ '.' :: b) = a) := by
  constructor
  · intro r hr
    simp only [process_document, clean_pdf_json_content, create_json_records, List.map_map,
      List.mem_map, Function.comp_def] at hr
    obtain ⟨pt, -, rfl⟩ := hr
    rfl
  · intro a b ha hb
    have hamem : '.' ∉ a := by simpa using ha
    have hbmem : '.' ∉ b := by simpa using hb
    constructor
    · unfold stemSpec
      rw [if_pos (by simp)]
      have hrev : (a ++ '.' :: b).reverse = b.reverse ++ '.' :: a.reverse := by
        simp
      rw [hrev, dropWhile_append_pos (p := fun c => c ≠ '.')
        (fun c hc => by
          simp only [decide_eq_true_eq]
          exact fun hcdot => hbmem (hcdot ▸ List.mem_reverse.mp hc)) ('.' :: a.reverse)]
      simp [List.dropWhile_cons]
    · unfold firstDotSegment
      rw [takeWhile_append_pos (p := fun c => c ≠ '.')
        (fun c hc => by
          simp only [decide_eq_true_eq]
          exact fun hcdot => hamem (hcdot ▸ hc)) ('.' :: b)]
      simp [List.takeWhile_cons]

/-- C9 counterexample: for the source document
`dataset/pdfs/hdfc.2024.pdf` the pipeline's record carries company
`"hdfc"` (text before the first dot of the base name), while the filename
stem is `"hdfc.2024"`; the claim's equality fails. -/
theorem claim_C9_counterexample :
    (process_document "dataset/pdfs/hdfc.2024.pdf" 2024
        [{ page_number := some 1, text := "x" }]).map PageEntry.company = ["hdfc"] ∧
    String.mk (stemSpec (basenameChars ("dataset/pdfs/hdfc.2024.pdf" : String).data))
      = "hdfc.2024" ∧
    ("hdfc" : String) ≠ "hdfc.2024" := by
  refine ⟨rfl, rfl, by decide⟩

theorem claim_C9_witness :
    (['h', 'i'] : List Char).contains '.' = false ∧
    stemSpec (['h', 'i'] ++ '.' :: ['p', 'd', 'f']) = ['h', 'i'] ∧
    firstDotSegment (['h', 'i'] ++ '.' :: ['p', 'd', 'f']) = ['h', 'i'] := by
  refine ⟨by decide, ?_, ?_⟩
  · exact ((claim_C9 "p" 0 []).2 ['h', 'i'] ['p', 'd', 'f'] (by decide) (by decide)).1
  · exact ((claim_C9 "p" 0 []).2 ['h', 'i'] ['p', 'd', 'f'] (by decide) (by decide)).2

/-! ## Claim C10: the index-creation dimension parameter is ignored -/

/-- C10: `create_index_if_not_exists` ignores its `dimension` parameter —
any two arguments produce the same result, and when the index is absent it
is created with dimension 384 and metric cosine even though the upsert
pipeline passes 348. -/
theorem claim_C10 (indexes : List (String × IndexSpec)) (index_name : String)
    (dim dim' : Nat) :
    create_index_if_not_exists indexes index_name dim
      = create_index_if_not_exists indexes index_name dim' ∧
    ((indexes.map Prod.fst).contains index_name = false →
      create_index_if_not_exists indexes index_name upsertDimensionArgument
        = indexes ++ [(index_name, { dimension := 384, metric := "cosine" })]) ∧
    (384 : Nat) ≠ upsertDimensionArgument := by
  refine ⟨rfl, fun h => ?_, by decide⟩
  unfold create_index_if_not_exists
  rw [if_neg (by simp only [h]; exact Bool.false_ne_true)]

/-! ## Scanning lemmas for the idempotence and page-number-removal proofs -/

theorem takeWhile_append_stop {α : Type} {p : α → Bool} {a : List α}
    (ha : a.dropWhile p ≠ []) (b : List α) :
    (a ++ b).takeWhile p = a.takeWhile p := by
  induction a with
  | nil => simp at ha
  | cons x t ih =>
    by_cases hx : p x
    · rw [List.dropWhile_cons, if_pos hx] at ha
      simp [List.takeWhile_cons, hx, ih ha]
    · simp [List.takeWhile_cons, hx]

theorem dropWhile_append_stop {α : Type} {p : α → Bool} {a : List α}
    (ha : a.dropWhile p ≠ []) (b : List α) :
    (a ++ b).dropWhile p = a.dropWhile p ++ b := by
  induction a with
  | nil => simp at ha
  | cons x t ih =>
    by_cases hx : p x
    · rw [List.dropWhile_cons, if_pos hx] at ha
      simp [List.dropWhile_cons, hx, ih ha]
    · simp [List.dropWhile_cons, hx]

theorem dropWhile_head_false {α : Type} {p : α → Bool} {l t : List α} {c : α}
    (h : l.dropWhile p = c :: t) : p c = false := by
  induction l with
  | nil => simp at h
  | cons x xs ih =>
    by_cases hx : p x
    · rw [List.dropWhile_cons, if_pos hx] at h
      exact ih h
    · rw [List.dropWhile_cons, if_neg hx] at h
      cases h
      simpa using hx

theorem mem_takeWhile_sat {α : Type} {p : α → Bool} {l : List α} {c : α}
    (h : c ∈ l.takeWhile p) : p c := by
  induction l with
  | nil => simp at h
  | cons x xs ih =>
    by_cases hx : p x
    · rw [List.takeWhile_cons, if_pos hx] at h
      rcases List.mem_cons.mp h with rfl | h
      · exact hx
      · exact ih h
    · rw [List.takeWhile_cons, if_neg hx] at h
      simp at h

theorem splitLastNl_none_of_no_newline {w : List Char} (h : '\n' ∉ w) :
    splitLastNl w = none := by
  induction w with
  | nil => rfl
  | cons c t ih =>
    have hc : c ≠ '\n' := fun hc => h (hc ▸ List.mem_cons_self c t)
    rw [splitLastNl, ih (fun hm => h (List.mem_cons_of_mem c hm)), if_neg hc]

theorem splitLastNl_isSome_of_mem {w : List Char} (h : '\n' ∈ w) :
    (splitLastNl w).isSome := by
  induction w with
  | nil => simp at h
  | cons c t ih =>
    rw [splitLastNl]
    rcases hs : splitLastNl t with - | ⟨a, b⟩
    · rcases List.mem_cons.mp h with hc | hm
      · rw [if_pos hc.symm]
        rfl
      · have := ih hm
        rw [hs] at this
        simp at this
    · rfl

theorem matchPat4_nil : matchPat4 [] = none := by decide

theorem matchTail_rest_shape {w1 lab t2 cs r : List Char}
    (h : matchTail w1 lab t2 = some (cs, r)) : r = [] ∨ ∃ r', r = '\n' :: r' := by
  unfold matchTail at h
  by_cases h1 : (t2.dropWhile isSpaceP).takeWhile isDigitP = []
  · simp [h1] at h
  · rw [if_neg h1] at h
    by_cases h2 : ((t2.dropWhile isSpaceP).dropWhile isDigitP).dropWhile isSpaceP = []
    · rw [if_pos h2] at h
      simp only [Option.some_inj, Prod.mk.injEq] at h
      exact Or.inl h.2.symm
    · rw [if_neg h2] at h
      rcases hs : splitLastNl (((t2.dropWhile isSpaceP).dropWhile isDigitP).takeWhile isSpaceP)
        with - | ⟨a, b⟩ <;> rw [hs] at h
      · exact absurd h (by simp)
      · simp only [Option.some_inj, Prod.mk.injEq] at h
        obtain ⟨b', rfl⟩ := splitLastNl_head hs
        exact Or.inr ⟨b' ++ ((t2.dropWhile isSpaceP).dropWhile isDigitP).dropWhile isSpaceP,
          by simp [← h.2]⟩

theorem matchPat4_rest_shape {l cs r : List Char} (h : matchPat4 l = some (cs, r)) :
    r = [] ∨ ∃ r', r = '\n' :: r' := by
  unfold matchPat4 at h
  rcases hs : stripLabel (l.dropWhile isSpaceP) with - | ⟨lab, t2⟩ <;> rw [hs] at h <;>
    exact matchTail_rest_shape h

theorem matchPat4_nlfree {l cs r : List Char} (hnl : '\n' ∉ l)
    (h : matchPat4 l = some (cs, r)) : cs = l ∧ r = [] := by
  have happ := matchPat4_append h
  rcases matchPat4_rest_shape h with rfl | ⟨r', rfl⟩
  · exact ⟨by simpa using happ, rfl⟩
  · exact absurd (happ ▸ List.mem_append_right cs (List.mem_cons_self '\n' r')) hnl

theorem space_cases {c : Char} (h : isSpaceP c) :
    c = ' ' ∨ c = '\t' ∨ c = '\n' ∨ c = '\r' ∨ c = '\x0b' ∨ c = '\x0c' := by
  have := h
  simp only [isSpaceP, Bool.or_eq_true, decide_eq_true_eq] at this
  tauto

theorem space_not_digit {c : Char} (h : isSpaceP c) : isDigitP c = false := by
  rcases space_cases h with rfl | rfl | rfl | rfl | rfl | rfl <;> decide

theorem digit_not_space {c : Char} (h : isDigitP c) : isSpaceP c = false := by
  by_cases hs : isSpaceP c
  · rw [space_not_digit hs] at h
    exact absurd h (by simp)
  · simpa using hs

theorem digit_ne_P {c : Char} (h : isDigitP c) : c ≠ 'P' := by
  rintro rfl
  exact absurd h (by decide)

theorem stripLabel_none_of_head {l : List Char} {c : Char} {t : List Char}
    (hl : l = c :: t) (hc : c ≠ 'P') : stripLabel l = none := by
  subst hl
  unfold stripLabel
  rw [if_neg]
  rintro (h4 | h4) <;> rw [List.take_succ_cons] at h4 <;>
    exact hc (List.cons_eq_cons.mp h4).1

theorem matchTail_some_decomp {w1 lab t2 cs r : List Char}
    (h : matchTail w1 lab t2 = some (cs, r)) :
    ∃ w2 ds w3,
      cs = w1 ++ lab ++ w2 ++ ds ++ w3 ∧
      (∀ c ∈ w2, isSpaceP c) ∧ ds ≠ [] ∧ (∀ c ∈ ds, isDigitP c) ∧
      (∀ c ∈ w3, isSpaceP c) := by
  unfold matchTail at h
  by_cases h1 : (t2.dropWhile isSpaceP).takeWhile isDigitP = []
  · simp [h1] at h
  · rw [if_neg h1] at h
    by_cases h2 : ((t2.dropWhile isSpaceP).dropWhile isDigitP).dropWhile isSpaceP = []
    · rw [if_pos h2] at h
      simp only [Option.some_inj, Prod.mk.injEq] at h
      refine ⟨t2.takeWhile isSpaceP, (t2.dropWhile isSpaceP).takeWhile isDigitP,
        (t2.dropWhile isSpaceP).dropWhile isDigitP, ?_, fun c hc => mem_takeWhile_sat hc, h1,
        fun c hc => mem_takeWhile_sat hc, fun c hc => List.dropWhile_eq_nil_iff.mp h2 c hc⟩
      rw [← h.1]
      have e1 : t2.takeWhile isSpaceP ++ ((t2.dropWhile isSpaceP).takeWhile isDigitP ++
          (t2.dropWhile isSpaceP).dropWhile isDigitP) = t2 := by
        rw [List.takeWhile_append_dropWhile isDigitP (t2.dropWhile isSpaceP),
          List.takeWhile_append_dropWhile isSpaceP t2]
      calc w1 ++ lab ++ t2
          = w1 ++ lab ++ (t2.takeWhile isSpaceP ++ ((t2.dropWhile isSpaceP).takeWhile isDigitP ++
              (t2.dropWhile isSpaceP).dropWhile isDigitP)) := by rw [e1]
        _ = w1 ++ lab ++ t2.takeWhile isSpaceP ++ (t2.dropWhile isSpaceP).takeWhile isDigitP ++
              (t2.dropWhile isSpaceP).dropWhile isDigitP := by simp [List.append_assoc]
    · rw [if_neg h2] at h
      rcases hs : splitLastNl (((t2.dropWhile isSpaceP).dropWhile isDigitP).takeWhile isSpaceP)
        with - | ⟨a, b⟩ <;> rw [hs] at h
      · exact absurd h (by simp)
      · simp only [Option.some_inj, Prod.mk.injEq] at h
        have hab := splitLastNl_append hs
        refine ⟨t2.takeWhile isSpaceP, (t2.dropWhile isSpaceP).takeWhile isDigitP, a,
          h.1.symm, fun c hc => mem_takeWhile_sat hc, h1,
          fun c hc => mem_takeWhile_sat hc, fun c hc => ?_⟩
        exact mem_takeWhile_sat (hab ▸ List.mem_append_left b hc)

theorem matchPat4_some_decomp {l cs r : List Char} (h : matchPat4 l = some (cs, r)) :
    ∃ w1 lab w2 ds w3,
      cs = w1 ++ lab ++ w2 ++ ds ++ w3 ∧
      (∀ c ∈ w1, isSpaceP c) ∧
      (lab = [] ∨ lab = ['P', 'a', 'g', 'e'] ∨ lab = ['P', 'A', 'G', 'E']) ∧
      (∀ c ∈ w2, isSpaceP c) ∧ ds ≠ [] ∧ (∀ c ∈ ds, isDigitP c) ∧
      (∀ c ∈ w3, isSpaceP c) := by
  unfold matchPat4 at h
  rcases hs : stripLabel (l.dropWhile isSpaceP) with - | ⟨lab, t2⟩ <;> rw [hs] at h
  · obtain ⟨w2, ds, w3, hcs, hw2, hds, hdig, hw3⟩ := matchTail_some_decomp h
    exact ⟨l.takeWhile isSpaceP, [], w2, ds, w3, by simpa using hcs,
      fun c hc => mem_takeWhile_sat hc, Or.inl rfl, hw2, hds, hdig, hw3⟩
  · obtain ⟨w2, ds, w3, hcs, hw2, hds, hdig, hw3⟩ := matchTail_some_decomp h
    exact ⟨l.takeWhile isSpaceP, lab, w2, ds, w3, hcs,
      fun c hc => mem_takeWhile_sat hc, Or.inr (stripLabel_append hs).2, hw2, hds, hdig, hw3⟩

theorem matchTail_isSome_ws {w1 lab w2 ds w3 : List Char}
    (hw2 : ∀ c ∈ w2, isSpaceP c) (hds : ds ≠ []) (hdig : ∀ c ∈ ds, isDigitP c)
    (hw3 : ∀ c ∈ w3, isSpaceP c) : (matchTail w1 lab (w2 ++ ds ++ w3)).isSome := by
  obtain ⟨d, ds', rfl⟩ : ∃ d ds', ds = d :: ds' := by
    rcases ds with - | ⟨d, ds'⟩
    · exact absurd rfl hds
    · exact ⟨d, ds', rfl⟩
  have hdsp : ∀ c ∈ d :: ds', isSpaceP c = false := fun c hc => digit_not_space (hdig c hc)
  have hdw : (w2 ++ (d :: ds') ++ w3).dropWhile isSpaceP = (d :: ds') ++ w3 := by
    rw [List.append_assoc, dropWhile_append_pos hw2, List.cons_append, List.dropWhile_cons,
      if_neg (by simp [hdsp d (List.mem_cons_self d ds')])]
  have htw : ((d :: ds') ++ w3).takeWhile isDigitP = d :: ds' := by
    rw [takeWhile_append_pos hdig]
    rcases w3 with - | ⟨w, w3'⟩
    · simp
    · rw [List.takeWhile_cons,
        if_neg (by simp [space_not_digit (hw3 w (List.mem_cons_self w w3'))])]
      simp
  have hdw2 : ((d :: ds') ++ w3).dropWhile isDigitP = w3 := by
    rw [dropWhile_append_pos hdig]
    rcases w3 with - | ⟨w, w3'⟩
    · simp
    · rw [List.dropWhile_cons,
        if_neg (by simp [space_not_digit (hw3 w (List.mem_cons_self w w3'))])]
  unfold matchTail
  rw [hdw, htw, hdw2, if_neg (by simp), if_pos (List.dropWhile_eq_nil_iff.mpr hw3)]
  rfl

theorem matchPat4_isSome_of_decomp {w1 lab w2 ds w3 : List Char}
    (hw1 : ∀ c ∈ w1, isSpaceP c)
    (hlab : lab = ['P', 'a', 'g', 'e'] ∨ lab = ['P', 'A', 'G', 'E'])
    (hw2 : ∀ c ∈ w2, isSpaceP c)
    (hds : ds ≠ []) (hdig : ∀ c ∈ ds, isDigitP c) (hw3 : ∀ c ∈ w3, isSpaceP c) :
    (matchPat4 (w1 ++ lab ++ w2 ++ ds ++ w3)).isSome := by
  have hdwl : (w1 ++ lab ++ w2 ++ ds ++ w3).dropWhile isSpaceP = lab ++ (w2 ++ ds ++ w3) := by
    have hP : isSpaceP 'P' = false := by decide
    rcases hlab with rfl | rfl <;>
      · simp only [List.append_assoc, List.cons_append]
        rw [dropWhile_append_pos hw1]
        simp [List.dropWhile_cons, hP]
  have hsl : stripLabel (lab ++ (w2 ++ ds ++ w3)) = some (lab, w2 ++ ds ++ w3) := by
    rcases hlab with rfl | rfl <;>
      · unfold stripLabel
        rw [if_pos (by simp)]
        simp
  unfold matchPat4
  rw [hdwl, hsl]
  exact matchTail_isSome_ws hw2 hds hdig hw3

theorem matchPat4_isSome_of_digits {w1 ds w3 : List Char}
    (hw1 : ∀ c ∈ w1, isSpaceP c)
    (hds : ds ≠ []) (hdig : ∀ c ∈ ds, isDigitP c) (hw3 : ∀ c ∈ w3, isSpaceP c) :
    (matchPat4 (w1 ++ ds ++ w3)).isSome := by
  obtain ⟨d, ds', rfl⟩ : ∃ d ds', ds = d :: ds' := by
    rcases ds with - | ⟨d, ds'⟩
    · exact absurd rfl hds
    · exact ⟨d, ds', rfl⟩
  have hdwl : (w1 ++ (d :: ds') ++ w3).dropWhile isSpaceP = (d :: ds') ++ w3 := by
    rw [List.append_assoc, dropWhile_append_pos hw1, List.cons_append, List.dropWhile_cons,
      if_neg (by simp [digit_not_space (hdig d (List.mem_cons_self d ds'))])]
  have hsl : stripLabel ((d :: ds') ++ w3) = none :=
    stripLabel_none_of_head rfl (digit_ne_P (hdig d (List.mem_cons_self d ds')))
  unfold matchPat4
  rw [hdwl, hsl]
  simpa using @matchTail_isSome_ws _ _ [] _ _ (by simp) hds hdig hw3

theorem matchTail_extend {w1 lab t2 cs r : List Char} (hnl : '\n' ∉ t2)
    (h : matchTail w1 lab t2 = some (cs, r)) (rest : List Char) :
    (matchTail w1 lab (t2 ++ '\n' :: rest)).isSome := by
  have h1 : (t2.dropWhile isSpaceP).takeWhile isDigitP ≠ [] := (matchTail_append h).2
  have ht3 : t2.dropWhile isSpaceP ≠ [] := by
    intro he
    exact h1 (by simp [he])
  have h2 : ((t2.dropWhile isSpaceP).dropWhile isDigitP).dropWhile isSpaceP = [] := by
    by_contra h2
    have hsn : splitLastNl (((t2.dropWhile isSpaceP).dropWhile isDigitP).takeWhile isSpaceP)
        = none := by
      refine splitLastNl_none_of_no_newline (fun hm => hnl ?_)
      exact (List.dropWhile_sublist isSpaceP).subset
        ((List.dropWhile_sublist isDigitP).subset
          ((List.takeWhile_sublist isSpaceP).subset hm))
    unfold matchTail at h
    rw [if_neg h1, if_neg h2, hsn] at h
    exact absurd h (by simp)
  have hdw : (t2 ++ '\n' :: rest).dropWhile isSpaceP = t2.dropWhile isSpaceP ++ '\n' :: rest :=
    dropWhile_append_stop ht3 _
  have hall4 : ∀ c ∈ (t2.dropWhile isSpaceP).dropWhile isDigitP, isSpaceP c :=
    List.dropWhile_eq_nil_iff.mp h2
  have htd1 : (t2.dropWhile isSpaceP ++ '\n' :: rest).takeWhile isDigitP
      = (t2.dropWhile isSpaceP).takeWhile isDigitP := by
    by_cases h4 : (t2.dropWhile isSpaceP).dropWhile isDigitP = []
    · have hall : ∀ c ∈ t2.dropWhile isSpaceP, isDigitP c := List.dropWhile_eq_nil_iff.mp h4
      have hres : (t2.dropWhile isSpaceP).takeWhile isDigitP = t2.dropWhile isSpaceP := by
        conv_rhs => rw [← List.takeWhile_append_dropWhile isDigitP (t2.dropWhile isSpaceP)]
        rw [h4, List.append_nil]
      rw [takeWhile_append_pos hall, List.takeWhile_cons, if_neg (by decide), hres,
        List.append_nil]
    · exact takeWhile_append_stop h4 _
  have htd2 : (t2.dropWhile isSpaceP ++ '\n' :: rest).dropWhile isDigitP
      = (t2.dropWhile isSpaceP).dropWhile isDigitP ++ '\n' :: rest := by
    by_cases h4 : (t2.dropWhile isSpaceP).dropWhile isDigitP = []
    · have hall : ∀ c ∈ t2.dropWhile isSpaceP, isDigitP c := List.dropWhile_eq_nil_iff.mp h4
      rw [dropWhile_append_pos hall, List.dropWhile_cons, if_neg (by decide), h4,
        List.nil_append]
    · exact dropWhile_append_stop h4 _
  have hw3 : ((t2.dropWhile isSpaceP).dropWhile isDigitP ++ '\n' :: rest).takeWhile isSpaceP
      = (t2.dropWhile isSpaceP).dropWhile isDigitP ++ '\n' :: rest.takeWhile isSpaceP := by
    rw [takeWhile_append_pos hall4, List.takeWhile_cons, if_pos (by decide)]
  have hw5 : ((t2.dropWhile isSpaceP).dropWhile isDigitP ++ '\n' :: rest).dropWhile isSpaceP
      = rest.dropWhile isSpaceP := by
    rw [dropWhile_append_pos hall4, List.dropWhile_cons, if_pos (by decide)]
  unfold matchTail
  rw [hdw, htd1, htd2, if_neg h1, hw3, hw5]
  by_cases h5 : rest.dropWhile isSpaceP = []
  · rw [if_pos h5]
    rfl
  · rw [if_neg h5]
    have hmem : '\n' ∈ (t2.dropWhile isSpaceP).dropWhile isDigitP ++ '\n'
        :: rest.takeWhile isSpaceP :=
      List.mem_append_right _ (List.mem_cons_self _ _)
    rcases hsp : splitLastNl ((t2.dropWhile isSpaceP).dropWhile isDigitP ++ '\n'
        :: rest.takeWhile isSpaceP) with - | ⟨a, b⟩
    · have := splitLastNl_isSome_of_mem hmem
      rw [hsp] at this
      simp at this
    · rfl

theorem stripLabel_extend_none {t1 : List Char} (h : stripLabel t1 = none) (rest : List Char) :
    stripLabel (t1 ++ '\n' :: rest) = none := by
  unfold stripLabel at h ⊢
  have hcond : ¬(t1.take 4 = ['P', 'a', 'g', 'e'] ∨ t1.take 4 = ['P', 'A', 'G', 'E']) := by
    intro hc
    rw [if_pos hc] at h
    exact absurd h (by simp)
  rw [if_neg]
  by_cases hlen : 4 ≤ t1.length
  · rw [List.take_append_of_le_length hlen]
    exact hcond
  · rw [List.take_append_eq_append_take]
    have hnl : '\n' ∈ t1.take 4 ++ ('\n' :: rest).take (4 - t1.length) := by
      refine List.mem_append_right _ ?_
      have : 4 - t1.length = (3 - t1.length) + 1 := by omega
      rw [this, List.take_succ_cons]
      exact List.mem_cons_self _ _
    rintro (hc | hc) <;> rw [hc] at hnl <;> exact absurd hnl (by decide)

theorem matchPat4_extend {L : List Char} (hnl : '\n' ∉ L) (hs : (matchPat4 L).isSome)
    (rest : List Char) : (matchPat4 (L ++ '\n' :: rest)).isSome := by
  obtain ⟨⟨cs, r⟩, h⟩ := Option.isSome_iff_exists.mp hs
  unfold matchPat4 at h ⊢
  by_cases ht1 : L.dropWhile isSpaceP = []
  · rw [ht1] at h
    simp [stripLabel, matchTail] at h
  · have hdw : (L ++ '\n' :: rest).dropWhile isSpaceP = L.dropWhile isSpaceP ++ '\n' :: rest :=
      dropWhile_append_stop ht1 _
    have htw : (L ++ '\n' :: rest).takeWhile isSpaceP = L.takeWhile isSpaceP :=
      takeWhile_append_stop ht1 _
    rw [hdw, htw]
    have hnl1 : '\n' ∉ L.dropWhile isSpaceP :=
      fun hm => hnl ((List.dropWhile_sublist isSpaceP).subset hm)
    rcases hsl : stripLabel (L.dropWhile isSpaceP) with - | ⟨lab, t2⟩ <;> rw [hsl] at h
    · rw [stripLabel_extend_none hsl rest]
      exact matchTail_extend hnl1 h rest
    · obtain ⟨ht1eq, hlab⟩ := stripLabel_append hsl
      have hnl2 : '\n' ∉ t2 := fun hm => hnl1 (ht1eq ▸ List.mem_append_right lab hm)
      have hsl2 : stripLabel (L.dropWhile isSpaceP ++ '\n' :: rest)
          = some (lab, t2 ++ '\n' :: rest) := by
        rw [ht1eq]
        rcases hlab with rfl | rfl <;>
          · unfold stripLabel
            rw [if_pos (by simp [List.cons_append])]
            simp [List.cons_append]
      rw [hsl2]
      exact matchTail_extend hnl2 h rest

theorem go4_nil (bol : Bool) : go4 bol [] = [] := by
  simp [go4]

theorem go4_true_some {c : Char} {t cs r : List Char}
    (hm : matchPat4 (c :: t) = some (cs, r)) :
    go4 true (c :: t) = go4 (cs.getLast? = some '\n') r := by
  rw [go4]
  rw [if_pos rfl]
  split
  · rename_i cs' r' h'
    rw [hm] at h'
    injection h' with h'
    injection h' with h1 h2
    rw [h1, h2]
  · rename_i h'
    rw [hm] at h'
    exact Option.noConfusion h'

theorem go4_true_none {c : Char} {t : List Char} (hm : matchPat4 (c :: t) = none) :
    go4 true (c :: t) = c :: go4 (c = '\n') t := by
  rw [go4]
  rw [if_pos rfl]
  split
  · rename_i cs' r' h'
    rw [hm] at h'
    exact Option.noConfusion h'
  · rfl

theorem go4_false_cons (c : Char) (t : List Char) :
    go4 false (c :: t) = c :: go4 (c = '\n') t := by
  rw [go4]
  rw [if_neg (by simp)]

theorem go4_false_nlfree {l : List Char} (h : '\n' ∉ l) : go4 false l = l := by
  induction l with
  | nil => exact go4_nil false
  | cons c t ih =>
    have hc : c ≠ '\n' := fun hc => h (hc ▸ List.mem_cons_self c t)
    rw [go4_false_cons, decide_eq_false hc, ih (fun hm => h (List.mem_cons_of_mem c hm))]

theorem go4_false_split {a : List Char} (ha : '\n' ∉ a) (b : List Char) :
    go4 false (a ++ '\n' :: b) = a ++ '\n' :: go4 true b := by
  induction a with
  | nil =>
    rw [List.nil_append, go4_false_cons, decide_eq_true rfl, List.nil_append]
  | cons c a' ih =>
    have hc : c ≠ '\n' := fun hc => ha (hc ▸ List.mem_cons_self c a')
    rw [List.cons_append, go4_false_cons, decide_eq_false hc,
      ih (fun hm => ha (List.mem_cons_of_mem c hm)), List.cons_append]

theorem exists_split_first_newline {t : List Char} (h : '\n' ∈ t) :
    ∃ A B, t = A ++ '\n' :: B ∧ '\n' ∉ A := by
  induction t with
  | nil => simp at h
  | cons c t ih =>
    by_cases hc : c = '\n'
    · exact ⟨[], t, by rw [hc, List.nil_append], by simp⟩
    · have hm : '\n' ∈ t := by
        rcases List.mem_cons.mp h with h' | h'
        · exact absurd h'.symm hc
        · exact h'
      obtain ⟨A, B, rfl, hA⟩ := ih hm
      refine ⟨c :: A, B, rfl, ?_⟩
      intro hmem
      rcases List.mem_cons.mp hmem with h' | h'
      · exact hc h'.symm
      · exact hA h'

theorem linesOf_cons_nl (t : List Char) : linesOf ('\n' :: t) = [] :: linesOf t := by
  rw [linesOf, if_pos rfl]

theorem linesOf_ne_nil (l : List Char) : linesOf l ≠ [] := by
  induction l with
  | nil => simp [linesOf]
  | cons c t ih =>
    rw [linesOf]
    by_cases hc : c = '\n'
    · rw [if_pos hc]
      simp
    · rw [if_neg hc]
      rcases hlt : linesOf t with - | ⟨L, rest⟩ <;> simp

theorem linesOf_nlfree {l : List Char} (h : '\n' ∉ l) : linesOf l = [l] := by
  induction l with
  | nil => rfl
  | cons c t ih =>
    have hc : c ≠ '\n' := fun hc => h (hc ▸ List.mem_cons_self c t)
    rw [linesOf, if_neg hc, ih (fun hm => h (List.mem_cons_of_mem c hm))]

theorem linesOf_append {a : List Char} (ha : '\n' ∉ a) (b : List Char) :
    linesOf (a ++ '\n' :: b) = a :: linesOf b := by
  induction a with
  | nil => rw [List.nil_append, linesOf_cons_nl]
  | cons c a' ih =>
    have hc : c ≠ '\n' := fun hc => ha (hc ▸ List.mem_cons_self c a')
    rw [List.cons_append, linesOf, if_neg hc, ih (fun hm => ha (List.mem_cons_of_mem c hm))]

theorem go4_lines_unmatched : ∀ (n : Nat) (l : List Char), l.length ≤ n →
    ∀ L ∈ linesOf (go4 true l), matchPat4 L = none := by
  intro n
  induction n with
  | zero =>
    intro l hl L hL
    obtain rfl : l = [] := List.length_eq_zero.mp (Nat.le_zero.mp hl)
    rw [go4_nil] at hL
    simp only [linesOf, List.mem_cons, List.not_mem_nil, or_false] at hL
    exact hL ▸ matchPat4_nil
  | succ n ih =>
    intro l hl L hL
    rcases l with - | ⟨c, t⟩
    · rw [go4_nil] at hL
      simp only [linesOf, List.mem_cons, List.not_mem_nil, or_false] at hL
      exact hL ▸ matchPat4_nil
    · rcases hm : matchPat4 (c :: t) with - | ⟨cs, r⟩
      · rw [go4_true_none hm] at hL
        by_cases hc : c = '\n'
        · subst hc
          rw [decide_eq_true rfl] at hL
          rw [show ('\n' :: go4 true t) = [] ++ '\n' :: go4 true t from rfl] at hL
          rw [show ([] : List Char) ++ '\n' :: go4 true t = '\n' :: go4 true t from rfl,
            linesOf_cons_nl] at hL
          rcases List.mem_cons.mp hL with rfl | hL
          · exact matchPat4_nil
          · exact ih t (by simpa using Nat.le_of_succ_le_succ (by simpa using hl)) L hL
        · rw [decide_eq_false hc] at hL
          by_cases hnl : '\n' ∈ t
          · obtain ⟨A, B, rfl, hA⟩ := exists_split_first_newline hnl
            rw [go4_false_split hA] at hL
            have hfree : '\n' ∉ c :: A := by
              intro hmem
              rcases List.mem_cons.mp hmem with h' | h'
              · exact hc h'.symm
              · exact hA h'
            rw [show c :: (A ++ '\n' :: go4 true B) = (c :: A) ++ '\n' :: go4 true B from rfl,
              linesOf_append hfree] at hL
            rcases List.mem_cons.mp hL with rfl | hL
            · by_contra hLs
              have hsome : (matchPat4 ((c :: A) ++ '\n' :: B)).isSome :=
                matchPat4_extend hfree (Option.ne_none_iff_isSome.mp hLs) B
              rw [show (c :: A) ++ '\n' :: B = c :: (A ++ '\n' :: B) from rfl, hm] at hsome
              simp at hsome
            · refine ih B ?_ L hL
              have := hl
              simp only [List.length_cons, List.length_append] at this
              omega
          · rw [go4_false_nlfree hnl] at hL
            have hfree : '\n' ∉ c :: t := by
              intro hmem
              rcases List.mem_cons.mp hmem with h' | h'
              · exact hc h'.symm
              · exact hnl h'
            rw [linesOf_nlfree hfree] at hL
            simp only [List.mem_cons, List.not_mem_nil, or_false] at hL
            exact hL ▸ hm
      · rw [go4_true_some hm] at hL
        have hrlen := matchPat4_rest_length hm
        rcases matchPat4_rest_shape hm with rfl | ⟨r', rfl⟩
        · rw [go4_nil] at hL
          simp only [linesOf, List.mem_cons, List.not_mem_nil, or_false] at hL
          exact hL ▸ matchPat4_nil
        · have hlen : ('\n' :: r').length ≤ n := by
            simp only [List.length_cons] at hrlen hl ⊢
            omega
          rcases hbol : (decide (cs.getLast? = some '\n')) with - | -
          · rw [hbol, go4_false_cons, decide_eq_true rfl, linesOf_cons_nl] at hL
            rcases List.mem_cons.mp hL with rfl | hL
            · exact matchPat4_nil
            · exact ih r' (by simpa using Nat.le_of_succ_le hlen) L hL
          · rw [hbol] at hL
            exact ih ('\n' :: r') hlen L hL

theorem tokensOf_nil : tokensOf [] = [] := by
  rw [tokensOf]

theorem tokensOf_cons_ws {c : Char} (hc : isSpaceP c) (t : List Char) :
    tokensOf (c :: t) = tokensOf t := by
  rw [tokensOf, if_pos hc]

theorem tokensOf_cons_nonws {c : Char} (hc : ¬ isSpaceP c) (t : List Char) :
    tokensOf (c :: t) = (c :: t.takeWhile (fun d => !isSpaceP d))
      :: tokensOf (t.dropWhile (fun d => !isSpaceP d)) := by
  rw [tokensOf, if_neg hc]

theorem tokensOf_props : ∀ (n : Nat) (l : List Char), l.length ≤ n →
    ∀ tok ∈ tokensOf l, tok ≠ [] ∧ ∀ c ∈ tok, isSpaceP c = false := by
  intro n
  induction n with
  | zero =>
    intro l hl tok htok
    obtain rfl : l = [] := List.length_eq_zero.mp (Nat.le_zero.mp hl)
    rw [tokensOf_nil] at htok
    simp at htok
  | succ n ih =>
    intro l hl tok htok
    rcases l with - | ⟨c, t⟩
    · rw [tokensOf_nil] at htok
      simp at htok
    · by_cases hc : isSpaceP c
      · rw [tokensOf_cons_ws hc] at htok
        exact ih t (by simpa using Nat.le_of_succ_le_succ (by simpa using hl)) tok htok
      · rw [tokensOf_cons_nonws hc] at htok
        rcases List.mem_cons.mp htok with rfl | htok
        · refine ⟨by simp, ?_⟩
          intro x hx
          rcases List.mem_cons.mp hx with rfl | hx
          · simpa using hc
          · simpa using mem_takeWhile_sat hx
        · refine ih (t.dropWhile (fun d => !isSpaceP d)) ?_ tok htok
          have := (List.dropWhile_sublist (l := t) (fun d => !isSpaceP d)).length_le
          simp only [List.length_cons] at hl
          omega

theorem tokensOf_subset : ∀ (n : Nat) (l : List Char), l.length ≤ n →
    ∀ tok ∈ tokensOf l, ∀ c ∈ tok, c ∈ l := by
  intro n
  induction n with
  | zero =>
    intro l hl tok htok
    obtain rfl : l = [] := List.length_eq_zero.mp (Nat.le_zero.mp hl)
    rw [tokensOf_nil] at htok
    simp at htok
  | succ n ih =>
    intro l hl tok htok x hx
    rcases l with - | ⟨c, t⟩
    · rw [tokensOf_nil] at htok
      simp at htok
    · by_cases hc : isSpaceP c
      · rw [tokensOf_cons_ws hc] at htok
        exact List.mem_cons_of_mem c
          (ih t (by simpa using Nat.le_of_succ_le_succ (by simpa using hl)) tok htok x hx)
      · rw [tokensOf_cons_nonws hc] at htok
        rcases List.mem_cons.mp htok with rfl | htok
        · rcases List.mem_cons.mp hx with rfl | hx
          · exact List.mem_cons_self x t
          · exact List.mem_cons_of_mem c ((List.takeWhile_sublist _).subset hx)
        · refine List.mem_cons_of_mem c
            ((List.dropWhile_sublist (l := t) (fun d => !isSpaceP d)).subset ?_)
          refine ih (t.dropWhile (fun d => !isSpaceP d)) ?_ tok htok x hx
          have := (List.dropWhile_sublist (l := t) (fun d => !isSpaceP d)).length_le
          simp only [List.length_cons] at hl
          omega

theorem tokensOf_ws_prefix {w : List Char} (hw : ∀ c ∈ w, isSpaceP c) (x : List Char) :
    tokensOf (w ++ x) = tokensOf x := by
  induction w with
  | nil => rfl
  | cons c t ih =>
    rw [List.cons_append, tokensOf_cons_ws (hw c (List.mem_cons_self c t))]
    exact ih (fun d hd => hw d (List.mem_cons_of_mem c hd))

theorem tokensOf_all_ws {w : List Char} (hw : ∀ c ∈ w, isSpaceP c) : tokensOf w = [] := by
  have := tokensOf_ws_prefix hw []
  rw [List.append_nil, tokensOf_nil] at this
  exact this

theorem tokensOf_eq_nil_all_ws : ∀ (n : Nat) (l : List Char), l.length ≤ n →
    tokensOf l = [] → ∀ c ∈ l, isSpaceP c := by
  intro n
  induction n with
  | zero =>
    intro l hl _ c hc
    obtain rfl : l = [] := List.length_eq_zero.mp (Nat.le_zero.mp hl)
    simp at hc
  | succ n ih =>
    intro l hl h c hc
    rcases l with - | ⟨c0, t⟩
    · simp at hc
    · by_cases hc0 : isSpaceP c0
      · rw [tokensOf_cons_ws hc0] at h
        rcases List.mem_cons.mp hc with rfl | hc
        · exact hc0
        · exact ih t (by simpa using Nat.le_of_succ_le_succ (by simpa using hl)) h c hc
      · rw [tokensOf_cons_nonws hc0] at h
        exact absurd h (by simp)

theorem tokensOf_run {run : List Char} (hne : run ≠ []) (hnw : ∀ c ∈ run, isSpaceP c = false)
    {x : List Char} (hx : x = [] ∨ ∃ c t, x = c :: t ∧ isSpaceP c) :
    tokensOf (run ++ x) = run :: tokensOf x := by
  obtain ⟨c0, run', rfl⟩ : ∃ c0 run', run = c0 :: run' := by
    rcases run with - | ⟨c0, run'⟩
    · exact absurd rfl hne
    · exact ⟨c0, run', rfl⟩
  have hall : ∀ c ∈ run', (fun d => !isSpaceP d) c = true := by
    intro c hc
    simp [hnw c (List.mem_cons_of_mem c0 hc)]
  have htwx : x.takeWhile (fun d => !isSpaceP d) = [] := by
    rcases hx with rfl | ⟨c, t, rfl, hcs⟩
    · rfl
    · rw [List.takeWhile_cons, if_neg (by simp [hcs])]
  have hdwx : x.dropWhile (fun d => !isSpaceP d) = x := by
    rcases hx with rfl | ⟨c, t, rfl, hcs⟩
    · rfl
    · rw [List.dropWhile_cons, if_neg (by simp [hcs])]
  rw [List.cons_append, tokensOf_cons_nonws (by simp [hnw c0 (List.mem_cons_self c0 run')]),
    takeWhile_append_pos hall, dropWhile_append_pos hall, htwx, hdwx, List.append_nil]

theorem tokensOf_split_ws : ∀ (n : Nat) (a : List Char), a.length ≤ n →
    ∀ {w : Char}, isSpaceP w → ∀ b, tokensOf (a ++ w :: b) = tokensOf a ++ tokensOf b := by
  intro n
  induction n with
  | zero =>
    intro a ha w hw b
    obtain rfl : a = [] := List.length_eq_zero.mp (Nat.le_zero.mp ha)
    rw [List.nil_append, tokensOf_cons_ws hw, tokensOf_nil, List.nil_append]
  | succ n ih =>
    intro a ha w hw b
    rcases a with - | ⟨c, t⟩
    · rw [List.nil_append, tokensOf_cons_ws hw, tokensOf_nil, List.nil_append]
    · by_cases hc : isSpaceP c
      · rw [List.cons_append, tokensOf_cons_ws hc, tokensOf_cons_ws hc]
        exact ih t (by simpa using Nat.le_of_succ_le_succ (by simpa using ha)) hw b
      · rw [List.cons_append, tokensOf_cons_nonws hc, tokensOf_cons_nonws hc]
        by_cases hdw : t.dropWhile (fun d => !isSpaceP d) = []
        · have hall : ∀ c ∈ t, (fun d => !isSpaceP d) c = true :=
            List.dropWhile_eq_nil_iff.mp hdw
          have htwt : t.takeWhile (fun d => !isSpaceP d) = t := by
            conv_rhs => rw [← List.takeWhile_append_dropWhile (fun d => !isSpaceP d) t]
            rw [hdw, List.append_nil]
          rw [takeWhile_append_pos hall, dropWhile_append_pos hall,
            List.takeWhile_cons, if_neg (by simp [hw]), List.dropWhile_cons,
            if_neg (by simp [hw]), tokensOf_cons_ws hw, hdw, tokensOf_nil, htwt,
            List.append_nil, List.cons_append, List.nil_append]
        · rw [takeWhile_append_stop hdw, dropWhile_append_stop hdw]
          have hlen : (t.dropWhile (fun d => !isSpaceP d)).length ≤ n := by
            have := (List.dropWhile_sublist (l := t) (fun d => !isSpaceP d)).length_le
            simp only [List.length_cons] at ha
            omega
          rw [ih (t.dropWhile (fun d => !isSpaceP d)) hlen hw b, List.cons_append]

theorem tokensOf_flatten_lines : ∀ (n : Nat) (l : List Char), l.length ≤ n →
    tokensOf l = ((linesOf l).map tokensOf).flatten := by
  intro n
  induction n with
  | zero =>
    intro l hl
    obtain rfl : l = [] := List.length_eq_zero.mp (Nat.le_zero.mp hl)
    simp [linesOf, tokensOf_nil]
  | succ n ih =>
    intro l hl
    by_cases hnl : '\n' ∈ l
    · obtain ⟨A, B, rfl, hA⟩ := exists_split_first_newline hnl
      rw [linesOf_append hA, tokensOf_split_ws A.length A le_rfl (by decide) B]
      have hlenB : B.length ≤ n := by
        simp only [List.length_append, List.length_cons] at hl
        omega
      rw [ih B hlenB]
      simp
    · rw [linesOf_nlfree hnl]
      simp

theorem flatten_eq_single {α : Type} : ∀ {ls : List (List α)} {x : α},
    ls.flatten = [x] → ∃ L ∈ ls, L = [x] := by
  intro ls
  induction ls with
  | nil => intro x h; simp at h
  | cons hd rest ih =>
    intro x hx
    rcases hd with - | ⟨a, h'⟩
    · obtain ⟨L, hL, hLx⟩ := ih (by simpa using hx)
      exact ⟨L, List.mem_cons_of_mem _ hL, hLx⟩
    · rw [List.flatten_cons, List.cons_append, List.cons_eq_cons] at hx
      obtain ⟨rfl, hx⟩ := hx
      obtain ⟨rfl, -⟩ := List.append_eq_nil.mp hx
      exact ⟨[a], List.mem_cons_self _ _, rfl⟩

theorem flatten_eq_pair {α : Type} : ∀ {ls : List (List α)} {x y : α},
    ls.flatten = [x, y] → (∃ L ∈ ls, L = [x, y]) ∨ (∃ L ∈ ls, L = [y]) := by
  intro ls
  induction ls with
  | nil => intro x y h; simp at h
  | cons hd rest ih =>
    intro x y hx
    rcases hd with - | ⟨a, h'⟩
    · rcases ih (by simpa using hx) with ⟨L, hL, hLx⟩ | ⟨L, hL, hLx⟩
      · exact Or.inl ⟨L, List.mem_cons_of_mem _ hL, hLx⟩
      · exact Or.inr ⟨L, List.mem_cons_of_mem _ hL, hLx⟩
    · rw [List.flatten_cons, List.cons_append, List.cons_eq_cons] at hx
      obtain ⟨rfl, hx⟩ := hx
      rcases h' with - | ⟨b, h''⟩
      · rw [List.nil_append] at hx
        obtain ⟨L, hL, hLy⟩ := flatten_eq_single hx
        exact Or.inr ⟨L, List.mem_cons_of_mem _ hL, hLy⟩
      · rw [List.cons_append, List.cons_eq_cons] at hx
        obtain ⟨rfl, hx⟩ := hx
        obtain ⟨rfl, -⟩ := List.append_eq_nil.mp hx
        exact Or.inl ⟨[a, b], List.mem_cons_self _ _, rfl⟩

theorem tokensOf_single_decomp : ∀ (n : Nat) (L : List Char), L.length ≤ n →
    ∀ {d : List Char}, tokensOf L = [d] →
    ∃ w1 w2, L = w1 ++ d ++ w2 ∧ (∀ c ∈ w1, isSpaceP c) ∧ (∀ c ∈ w2, isSpaceP c) := by
  intro n
  induction n with
  | zero =>
    intro L hL d h
    obtain rfl : L = [] := List.length_eq_zero.mp (Nat.le_zero.mp hL)
    rw [tokensOf_nil] at h
    exact absurd h (by simp)
  | succ n ih =>
    intro L hL d h
    rcases L with - | ⟨c, t⟩
    · rw [tokensOf_nil] at h
      exact absurd h (by simp)
    · by_cases hc : isSpaceP c
      · rw [tokensOf_cons_ws hc] at h
        obtain ⟨w1, w2, rfl, hw1, hw2⟩ :=
          ih t (by simpa using Nat.le_of_succ_le_succ (by simpa using hL)) h
        refine ⟨c :: w1, w2, rfl, ?_, hw2⟩
        intro x hx
        rcases List.mem_cons.mp hx with rfl | hx
        · exact hc
        · exact hw1 x hx
      · rw [tokensOf_cons_nonws hc, List.cons_eq_cons] at h
        obtain ⟨rfl, h2⟩ := h
        have hws : ∀ x ∈ t.dropWhile (fun d => !isSpaceP d), isSpaceP x :=
          tokensOf_eq_nil_all_ws (t.dropWhile (fun d => !isSpaceP d)).length _ le_rfl h2
        refine ⟨[], t.dropWhile (fun d => !isSpaceP d), ?_, by simp, hws⟩
        rw [List.nil_append, List.cons_append, List.takeWhile_append_dropWhile]

theorem tokensOf_pair_decomp : ∀ (n : Nat) (L : List Char), L.length ≤ n →
    ∀ {d1 d2 : List Char}, tokensOf L = [d1, d2] →
    ∃ w1 w2 w3, L = w1 ++ d1 ++ w2 ++ d2 ++ w3 ∧ (∀ c ∈ w1, isSpaceP c) ∧
      w2 ≠ [] ∧ (∀ c ∈ w2, isSpaceP c) ∧ (∀ c ∈ w3, isSpaceP c) := by
  intro n
  induction n with
  | zero =>
    intro L hL d1 d2 h
    obtain rfl : L = [] := List.length_eq_zero.mp (Nat.le_zero.mp hL)
    rw [tokensOf_nil] at h
    exact absurd h (by simp)
  | succ n ih =>
    intro L hL d1 d2 h
    rcases L with - | ⟨c, t⟩
    · rw [tokensOf_nil] at h
      exact absurd h (by simp)
    · by_cases hc : isSpaceP c
      · rw [tokensOf_cons_ws hc] at h
        obtain ⟨w1, w2, w3, rfl, hw1, hw2ne, hw2, hw3⟩ :=
          ih t (by simpa using Nat.le_of_succ_le_succ (by simpa using hL)) h
        refine ⟨c :: w1, w2, w3, rfl, ?_, hw2ne, hw2, hw3⟩
        intro x hx
        rcases List.mem_cons.mp hx with rfl | hx
        · exact hc
        · exact hw1 x hx
      · rw [tokensOf_cons_nonws hc, List.cons_eq_cons] at h
        obtain ⟨rfl, h2⟩ := h
        have hlen : (t.dropWhile (fun d => !isSpaceP d)).length ≤ n := by
          have := (List.dropWhile_sublist (l := t) (fun d => !isSpaceP d)).length_le
          simp only [List.length_cons] at hL
          omega
        obtain ⟨v1, v2, hdw, hv1, hv2⟩ :=
          tokensOf_single_decomp n (t.dropWhile (fun d => !isSpaceP d)) hlen h2
        have hv1ne : v1 ≠ [] := by
          rintro rfl
          rcases hdwe : t.dropWhile (fun d => !isSpaceP d) with - | ⟨x, dwt⟩
          · rw [hdwe] at hdw
            obtain ⟨hd2, -⟩ := List.append_eq_nil.mp hdw.symm
            have := (tokensOf_props (t.dropWhile (fun d => !isSpaceP d)).length _ le_rfl d2
              (h2 ▸ List.mem_cons_self d2 [])).1
            exact this hd2
          · have hxs : isSpaceP x := by
              have := dropWhile_head_false hdwe
              simpa using this
            have hd2props := tokensOf_props (t.dropWhile (fun d => !isSpaceP d)).length _
              le_rfl d2 (h2 ▸ List.mem_cons_self d2 [])
            rw [List.nil_append] at hdw
            rcases hd2 : d2 with - | ⟨y, d2'⟩
            · exact hd2props.1 hd2
            · rw [hd2, hdwe, List.cons_append, List.cons_eq_cons] at hdw
              have hyx : x = y := hdw.1
              have : isSpaceP y = false := hd2props.2 y (hd2 ▸ List.mem_cons_self y d2')
              rw [← hyx, hxs] at this
              exact Bool.noConfusion this
        refine ⟨[], v1, v2, ?_, by simp, hv1ne, hv1, hv2⟩
        rw [List.append_assoc] at hdw
        simp only [List.nil_append, List.cons_append, List.append_assoc]
        rw [← hdw, List.takeWhile_append_dropWhile]

theorem mem_of_mem_getLast? {α : Type} {l : List α} {x : α} (h : x ∈ l.getLast?) : x ∈ l := by
  obtain ⟨hne, rfl⟩ := List.mem_getLast?_eq_getLast h
  exact List.getLast_mem hne

theorem joinTokens_cons {t u : List Char} (ts : List (List Char)) :
    joinTokens (t :: u :: ts) = t ++ ' ' :: joinTokens (u :: ts) := by
  rfl

theorem mem_joinTokens : ∀ {ts : List (List Char)} {c : Char},
    c ∈ joinTokens ts → c = ' ' ∨ ∃ tok ∈ ts, c ∈ tok := by
  intro ts
  induction ts with
  | nil => intro c hc; simp [joinTokens] at hc
  | cons t ts ih =>
    intro c hc
    rcases ts with - | ⟨u, ts'⟩
    · exact Or.inr ⟨t, List.mem_cons_self t [], hc⟩
    · rw [joinTokens_cons] at hc
      rcases List.mem_append.mp hc with hc | hc
      · exact Or.inr ⟨t, List.mem_cons_self _ _, hc⟩
      · rcases List.mem_cons.mp hc with rfl | hc
        · exact Or.inl rfl
        · rcases ih hc with h | ⟨tok, htok, hmem⟩
          · exact Or.inl h
          · exact Or.inr ⟨tok, List.mem_cons_of_mem t htok, hmem⟩

theorem tokensOf_joinTokens : ∀ {ts : List (List Char)},
    (∀ tok ∈ ts, tok ≠ [] ∧ ∀ c ∈ tok, isSpaceP c = false) →
    tokensOf (joinTokens ts) = ts := by
  intro ts
  induction ts with
  | nil => intro _; exact tokensOf_nil
  | cons t ts ih =>
    intro hts
    obtain ⟨htne, htnw⟩ := hts t (List.mem_cons_self t ts)
    have hsingle := tokensOf_run htne htnw (Or.inl rfl)
    rw [List.append_nil, tokensOf_nil] at hsingle
    rcases ts with - | ⟨u, ts'⟩
    · rw [show joinTokens [t] = t from rfl, hsingle]
    · rw [joinTokens_cons,
        tokensOf_split_ws t.length t le_rfl (by decide) (joinTokens (u :: ts')), hsingle,
        ih (fun tok htok => hts tok (List.mem_cons_of_mem t htok))]
      rfl

theorem joinTokens_head_nonws {ts : List (List Char)}
    (hts : ∀ tok ∈ ts, tok ≠ [] ∧ ∀ c ∈ tok, isSpaceP c = false) {c : Char}
    (hc : (joinTokens ts).head? = some c) : isSpaceP c = false := by
  rcases ts with - | ⟨t, ts'⟩
  · simp [joinTokens] at hc
  · obtain ⟨htne, htnw⟩ := hts t (List.mem_cons_self t ts')
    obtain ⟨c0, t', rfl⟩ : ∃ c0 t', t = c0 :: t' := by
      rcases t with - | ⟨c0, t'⟩
      · exact absurd rfl htne
      · exact ⟨c0, t', rfl⟩
    have hhead : (joinTokens ((c0 :: t') :: ts')).head? = some c0 := by
      rcases ts' with - | ⟨u, ts''⟩
      · rfl
      · rw [joinTokens_cons, List.cons_append]
        rfl
    rw [hhead] at hc
    injection hc with hc
    exact hc ▸ htnw c0 (List.mem_cons_self c0 t')

theorem chain_no_double_space_of_nonws {l : List Char}
    (h : ∀ c ∈ l, isSpaceP c = false) :
    l.Chain' (fun a b => ¬(a = ' ' ∧ b = ' ')) := by
  induction l with
  | nil => exact List.chain'_nil
  | cons c t ih =>
    rw [List.chain'_cons']
    refine ⟨fun y _ hy => ?_, ih (fun d hd => h d (List.mem_cons_of_mem c hd))⟩
    have := h c (List.mem_cons_self c t)
    rw [hy.1] at this
    exact absurd this (by decide)

theorem joinTokens_chain {ts : List (List Char)}
    (hts : ∀ tok ∈ ts, tok ≠ [] ∧ ∀ c ∈ tok, isSpaceP c = false) :
    (joinTokens ts).Chain' (fun a b => ¬(a = ' ' ∧ b = ' ')) := by
  induction ts with
  | nil => exact List.chain'_nil
  | cons t ts ih =>
    obtain ⟨htne, htnw⟩ := hts t (List.mem_cons_self t ts)
    rcases ts with - | ⟨u, ts'⟩
    · exact chain_no_double_space_of_nonws htnw
    · rw [joinTokens_cons, List.chain'_append]
      refine ⟨chain_no_double_space_of_nonws htnw, ?_, ?_⟩
      · rw [List.chain'_cons']
        refine ⟨fun y hy hxy => ?_,
          ih (fun tok htok => hts tok (List.mem_cons_of_mem t htok))⟩
        have := joinTokens_head_nonws
          (fun tok htok => hts tok (List.mem_cons_of_mem t htok)) hy
        rw [hxy.2] at this
        exact absurd this (by decide)
      · intro x hx y hy hxy
        have := htnw x (mem_of_mem_getLast? hx)
        rw [hxy.1] at this
        exact absurd this (by decide)

theorem sub2_eq_self_of_chain {l : List Char}
    (h : l.Chain' (fun a b => ¬(a = ' ' ∧ b = ' '))) : sub2 l = l := by
  induction l using sub2.induct with
  | case1 => rw [sub2]
  | case2 c t hcond ih =>
    obtain ⟨rfl, hhead⟩ := hcond
    rcases t with - | ⟨d, t'⟩
    · simp at hhead
    · injection hhead with hd
      rw [List.chain'_cons'] at h
      exact absurd ⟨rfl, hd⟩ (h.1 d rfl)
  | case3 c t hcond ih =>
    rw [sub2, if_neg hcond, ih h.tail]

theorem sub5_eq_self_of_no_newline {l : List Char} (h : '\n' ∉ l) : sub5 l = l := by
  induction l using sub5.induct with
  | case1 => rw [sub5]
  | case2 c t hcond ih =>
    exact absurd (hcond.1 ▸ List.mem_cons_self c t) h
  | case3 c t hcond ih =>
    rw [sub5, if_neg hcond, ih (fun hm => h (List.mem_cons_of_mem c hm))]

theorem sub3_eq_self {l : List Char} (h : ∀ c ∈ l, isBorderP c = false) : sub3 l = l := by
  unfold sub3
  refine List.filter_eq_self.mpr (fun a ha => ?_)
  simp [h a ha]

theorem go4_true_id {l : List Char} (hm : matchPat4 l = none) (hnl : '\n' ∉ l) :
    go4 true l = l := by
  rcases l with - | ⟨c, t⟩
  · exact go4_nil true
  · have hc : c ≠ '\n' := fun hc => hnl (hc ▸ List.mem_cons_self c t)
    rw [go4_true_none hm, decide_eq_false hc,
      go4_false_nlfree (fun hmem => hnl (List.mem_cons_of_mem c hmem))]

theorem cws_nil : cws [] = [] := by
  rw [cws]

theorem cws_cons_ws {c : Char} (hc : isSpaceP c) (t : List Char) :
    cws (c :: t) = ' ' :: cws (t.dropWhile isSpaceP) := by
  rw [cws, if_pos hc]

theorem cws_cons_nonws {c : Char} (hc : ¬ isSpaceP c) (t : List Char) :
    cws (c :: t) = c :: cws t := by
  rw [cws, if_neg hc]

theorem cws_append_run {run : List Char} (h : ∀ c ∈ run, isSpaceP c = false) (x : List Char) :
    cws (run ++ x) = run ++ cws x := by
  induction run with
  | nil => rfl
  | cons c t ih =>
    rw [List.cons_append, cws_cons_nonws (by simp [h c (List.mem_cons_self c t)]),
      ih (fun d hd => h d (List.mem_cons_of_mem c hd)), List.cons_append]

theorem cws_all_ws {x : List Char} (h : ∀ c ∈ x, isSpaceP c) :
    cws x = [] ∨ cws x = [' '] := by
  rcases x with - | ⟨c, t⟩
  · exact Or.inl cws_nil
  · refine Or.inr ?_
    rw [cws_cons_ws (h c (List.mem_cons_self c t)),
      List.dropWhile_eq_nil_iff.mpr (fun d hd => h d (List.mem_cons_of_mem c hd)), cws_nil]

theorem tokensOf_dropWhile_ws {t : List Char} :
    tokensOf (t.dropWhile isSpaceP) = tokensOf t := by
  induction t with
  | nil => rfl
  | cons c t ih =>
    by_cases hc : isSpaceP c
    · rw [List.dropWhile_cons, if_pos hc, ih, tokensOf_cons_ws hc]
    · rw [List.dropWhile_cons, if_neg hc]

theorem rstripP_nil : rstripP [] = [] := rfl

theorem rstripP_append_keep {W : List Char} (hW : ∃ c ∈ W, isSpaceP c = false)
    (A : List Char) : rstripP (A ++ W) = A ++ rstripP W := by
  unfold rstripP
  rw [List.reverse_append]
  have hne : W.reverse.dropWhile isSpaceP ≠ [] := by
    intro he
    obtain ⟨c, hc, hcs⟩ := hW
    have := List.dropWhile_eq_nil_iff.mp he c (List.mem_reverse.mpr hc)
    rw [hcs] at this
    exact Bool.noConfusion this
  rw [dropWhile_append_stop hne, List.reverse_append, List.reverse_reverse]

theorem rstripP_append_ws {w : List Char} (h : ∀ c ∈ w, isSpaceP c) (A : List Char) :
    rstripP (A ++ w) = rstripP A := by
  unfold rstripP
  rw [List.reverse_append, dropWhile_append_pos (fun c hc => h c (List.mem_reverse.mp hc))]

theorem rstripP_nonws {run : List Char} (h : ∀ c ∈ run, isSpaceP c = false) :
    rstripP run = run := by
  unfold rstripP
  rcases hrev : run.reverse with - | ⟨c, t⟩
  · rw [List.dropWhile_nil, ← hrev, List.reverse_reverse]
  · rw [List.dropWhile_cons, if_neg ?hc, ← hrev, List.reverse_reverse]
    case hc =>
      have hmem : c ∈ run := List.mem_reverse.mp (hrev ▸ List.mem_cons_self c t)
      simp [h c hmem]

theorem stripP_cons_nonws {c : Char} (hc : isSpaceP c = false) (t : List Char) :
    stripP (c :: t) = rstripP (c :: t) := by
  unfold stripP
  rw [List.dropWhile_cons, if_neg (by simp [hc])]

theorem stripP_cons_ws {c : Char} (hc : isSpaceP c) (t : List Char) :
    stripP (c :: t) = stripP t := by
  unfold stripP
  rw [List.dropWhile_cons, if_pos hc]

theorem mem_dropWhile_of_neg {α : Type} {p : α → Bool} {t : List α} {c : α}
    (hc : c ∈ t) (hcp : p c = false) : c ∈ t.dropWhile p := by
  induction t with
  | nil => simp at hc
  | cons d t' ih =>
    by_cases hd : p d
    · rw [List.dropWhile_cons, if_pos hd]
      rcases List.mem_cons.mp hc with rfl | hc'
      · rw [hd] at hcp
        exact Bool.noConfusion hcp
      · exact ih hc'
    · rw [List.dropWhile_cons, if_neg hd]
      exact hc

theorem cws_mem_nonws : ∀ (n : Nat) (x : List Char), x.length ≤ n →
    ∀ {c : Char}, c ∈ x → isSpaceP c = false → c ∈ cws x := by
  intro n
  induction n with
  | zero =>
    intro x hx c hc _
    obtain rfl : x = [] := List.length_eq_zero.mp (Nat.le_zero.mp hx)
    simp at hc
  | succ n ih =>
    intro x hx c hc hcs
    rcases x with - | ⟨c0, t⟩
    · simp at hc
    · by_cases hc0 : isSpaceP c0
      · rw [cws_cons_ws hc0]
        rcases List.mem_cons.mp hc with rfl | hc
        · rw [hc0] at hcs
          exact Bool.noConfusion hcs
        · refine List.mem_cons_of_mem ' ' (ih (t.dropWhile isSpaceP) ?_ ?_ hcs)
          · have := (List.dropWhile_sublist (l := t) isSpaceP).length_le
            simp only [List.length_cons] at hx
            omega
          · exact mem_dropWhile_of_neg hc hcs
      · rw [cws_cons_nonws hc0]
        rcases List.mem_cons.mp hc with rfl | hc
        · exact List.mem_cons_self c _
        · exact List.mem_cons_of_mem c0
            (ih t (by simpa using Nat.le_of_succ_le_succ (by simpa using hx)) hc hcs)

theorem strip_cws : ∀ (n : Nat) (l : List Char), l.length ≤ n →
    stripP (cws l) = joinTokens (tokensOf l) := by
  intro n
  induction n with
  | zero =>
    intro l hl
    obtain rfl : l = [] := List.length_eq_zero.mp (Nat.le_zero.mp hl)
    rw [cws_nil, tokensOf_nil]
    rfl
  | succ n ih =>
    intro l hl
    rcases l with - | ⟨c, t⟩
    · rw [cws_nil, tokensOf_nil]
      rfl
    · by_cases hc : isSpaceP c
      · rw [cws_cons_ws hc, stripP_cons_ws (by decide), tokensOf_cons_ws hc,
          ← tokensOf_dropWhile_ws (t := t)]
        refine ih (t.dropWhile isSpaceP) ?_
        have := (List.dropWhile_sublist (l := t) isSpaceP).length_le
        simp only [List.length_cons] at hl
        omega
      · have hrw : c :: t = (c :: t.takeWhile (fun d => !isSpaceP d))
            ++ t.dropWhile (fun d => !isSpaceP d) := by
          rw [List.cons_append, List.takeWhile_append_dropWhile]
        have hrunnw : ∀ d ∈ c :: t.takeWhile (fun d => !isSpaceP d), isSpaceP d = false := by
          intro d hd
          rcases List.mem_cons.mp hd with rfl | hd
          · simpa using hc
          · simpa using mem_takeWhile_sat hd
        have hrunne : (c :: t.takeWhile (fun d => !isSpaceP d)) ≠ [] := by simp
        have hxshape : t.dropWhile (fun d => !isSpaceP d) = [] ∨
            ∃ w x', t.dropWhile (fun d => !isSpaceP d) = w :: x' ∧ isSpaceP w := by
          rcases hx : t.dropWhile (fun d => !isSpaceP d) with - | ⟨w, x'⟩
          · exact Or.inl rfl
          · refine Or.inr ⟨w, x', rfl, ?_⟩
            have := dropWhile_head_false hx
            simpa using this
        rw [hrw, cws_append_run hrunnw,
          tokensOf_run hrunne hrunnw
            (by
              rcases hxshape with h0 | ⟨w, x', hval, hw⟩
              · exact Or.inl h0
              · exact Or.inr ⟨w, x', hval, hw⟩)]
        rcases hxshape with h0 | ⟨w, x', hval, hw⟩
        · rw [h0, tokensOf_nil, cws_nil, List.append_nil, show joinTokens
            [c :: t.takeWhile (fun d => !isSpaceP d)] = c :: t.takeWhile (fun d => !isSpaceP d)
            from rfl, stripP_cons_nonws (by simpa using hc)]
          exact rstripP_nonws hrunnw
        · rw [hval, tokensOf_cons_ws hw, ← tokensOf_dropWhile_ws (t := x'), cws_cons_ws hw]
          rcases hx2 : x'.dropWhile isSpaceP with - | ⟨c2, t2⟩
          · rw [cws_nil, tokensOf_nil,
              show joinTokens [c :: t.takeWhile (fun d => !isSpaceP d)]
                = c :: t.takeWhile (fun d => !isSpaceP d) from rfl,
              List.cons_append, stripP_cons_nonws (by simpa using hc), ← List.cons_append,
              rstripP_append_ws (w := [' ']) (by decide)]
            exact rstripP_nonws hrunnw
          · have hc2 : isSpaceP c2 = false := by
              have := dropWhile_head_false hx2
              simpa using this
            have hlen2 : (c2 :: t2).length ≤ n := by
              have h1 := (List.dropWhile_sublist (l := x') isSpaceP).length_le
              rw [hx2] at h1
              have h2 := (List.dropWhile_sublist (l := t) (fun d => !isSpaceP d)).length_le
              rw [hval] at h2
              simp only [List.length_cons] at hl h1 h2 ⊢
              omega
            have hih := ih (c2 :: t2) hlen2
            have htok2 : tokensOf (c2 :: t2) ≠ [] := by
              rw [tokensOf_cons_nonws (by simp [hc2])]
              simp
            have hcws2 : cws (c2 :: t2) = c2 :: cws t2 := cws_cons_nonws (by simp [hc2]) t2
            have hkeep : rstripP ((c :: t.takeWhile (fun d => !isSpaceP d)) ++ ' '
                :: cws (c2 :: t2)) = (c :: t.takeWhile (fun d => !isSpaceP d)) ++ ' '
                :: rstripP (cws (c2 :: t2)) := by
              have h1 : (c :: t.takeWhile (fun d => !isSpaceP d)) ++ ' ' :: cws (c2 :: t2)
                  = ((c :: t.takeWhile (fun d => !isSpaceP d)) ++ [' ']) ++ cws (c2 :: t2) := by
                simp
              have h2 := rstripP_append_keep
                (W := cws (c2 :: t2))
                ⟨c2, hcws2 ▸ List.mem_cons_self c2 (cws t2), hc2⟩
                ((c :: t.takeWhile (fun d => !isSpaceP d)) ++ [' '])
              rw [h1, h2]
              simp
            rw [List.cons_append, stripP_cons_nonws (by simpa using hc), ← List.cons_append,
              hkeep]
            have hstrip2 : stripP (cws (c2 :: t2)) = rstripP (cws (c2 :: t2)) := by
              rw [hcws2]
              exact stripP_cons_nonws hc2 (cws t2)
            rw [← hstrip2, hih]
            rcases htokval : tokensOf (c2 :: t2) with - | ⟨tok0, toks⟩
            · exact absurd htokval htok2
            · rw [joinTokens_cons]

theorem sub5_nil : sub5 [] = [] := by
  rw [sub5]

theorem sub5_cons_collapse {c : Char} {t : List Char}
    (hcond : c = '\n' ∧ t.head? = some '\n') :
    sub5 (c :: t) = '\n' :: sub5 (t.dropWhile (fun d => d = '\n')) := by
  rw [sub5, if_pos hcond]

theorem sub5_cons_keep {c : Char} {t : List Char}
    (hcond : ¬(c = '\n' ∧ t.head? = some '\n')) :
    sub5 (c :: t) = c :: sub5 t := by
  rw [sub5, if_neg hcond]

theorem sub5_append_run {run : List Char} (h : ∀ c ∈ run, isSpaceP c = false)
    (x : List Char) : sub5 (run ++ x) = run ++ sub5 x := by
  induction run with
  | nil => rfl
  | cons c t ih =>
    have hc : c ≠ '\n' := by
      intro hc
      have := h c (List.mem_cons_self c t)
      rw [hc] at this
      exact absurd this (by decide)
    rw [List.cons_append, sub5_cons_keep (fun hcond => hc hcond.1),
      ih (fun d hd => h d (List.mem_cons_of_mem c hd)), List.cons_append]

theorem tokensOf_dropWhile_of_ws {p : Char → Bool} (hp : ∀ c, p c = true → isSpaceP c)
    {t : List Char} : tokensOf (t.dropWhile p) = tokensOf t := by
  induction t with
  | nil => rfl
  | cons c t ih =>
    by_cases hc : p c
    · rw [List.dropWhile_cons, if_pos hc, ih, tokensOf_cons_ws (hp c hc)]
    · rw [List.dropWhile_cons, if_neg hc]

theorem tokensOf_sub5 : ∀ (n : Nat) (l : List Char), l.length ≤ n →
    tokensOf (sub5 l) = tokensOf l := by
  intro n
  induction n with
  | zero =>
    intro l hl
    obtain rfl : l = [] := List.length_eq_zero.mp (Nat.le_zero.mp hl)
    rw [sub5_nil]
  | succ n ih =>
    intro l hl
    rcases l with - | ⟨c, t⟩
    · rw [sub5_nil]
    · by_cases hc : isSpaceP c
      · by_cases hcond : c = '\n' ∧ t.head? = some '\n'
        · rw [sub5_cons_collapse hcond, tokensOf_cons_ws (by decide), tokensOf_cons_ws hc]
          have hlen : (t.dropWhile (fun d => d = '\n')).length ≤ n := by
            have := (List.dropWhile_sublist (l := t) (fun d => decide (d = '\n'))).length_le
            simp only [List.length_cons] at hl
            omega
          rw [ih (t.dropWhile (fun d => d = '\n')) hlen]
          exact tokensOf_dropWhile_of_ws
            (fun d hd => by rw [show d = '\n' by simpa using hd]; decide)
        · rw [sub5_cons_keep hcond, tokensOf_cons_ws hc, tokensOf_cons_ws hc]
          exact ih t (by simpa using Nat.le_of_succ_le_succ (by simpa using hl))
      · have hc' : c ≠ '\n' := by
          intro hcn
          rw [hcn] at hc
          exact hc (by decide)
        have hrw : c :: t = (c :: t.takeWhile (fun d => !isSpaceP d))
            ++ t.dropWhile (fun d => !isSpaceP d) := by
          rw [List.cons_append, List.takeWhile_append_dropWhile]
        have hrunnw : ∀ d ∈ c :: t.takeWhile (fun d => !isSpaceP d), isSpaceP d = false := by
          intro d hd
          rcases List.mem_cons.mp hd with rfl | hd
          · simpa using hc
          · simpa using mem_takeWhile_sat hd
        have hxshape : t.dropWhile (fun d => !isSpaceP d) = [] ∨
            ∃ w x', t.dropWhile (fun d => !isSpaceP d) = w :: x' ∧ isSpaceP w := by
          rcases hx : t.dropWhile (fun d => !isSpaceP d) with - | ⟨w, x'⟩
          · exact Or.inl rfl
          · refine Or.inr ⟨w, x', rfl, ?_⟩
            have := dropWhile_head_false hx
            simpa using this
        have hsub5shape : sub5 (t.dropWhile (fun d => !isSpaceP d)) = [] ∨
            ∃ w x', sub5 (t.dropWhile (fun d => !isSpaceP d)) = w :: x' ∧ isSpaceP w := by
          rcases hxshape with h0 | ⟨w, x', hval, hw⟩
          · rw [h0, sub5_nil]
            exact Or.inl rfl
          · rw [hval]
            by_cases hcond : w = '\n' ∧ x'.head? = some '\n'
            · rw [sub5_cons_collapse hcond]
              exact Or.inr ⟨'\n', _, rfl, by decide⟩
            · rw [sub5_cons_keep hcond]
              exact Or.inr ⟨w, _, rfl, hw⟩
        have hlen : (t.dropWhile (fun d => !isSpaceP d)).length ≤ n := by
          have := (List.dropWhile_sublist (l := t) (fun d => !isSpaceP d)).length_le
          simp only [List.length_cons] at hl
          omega
        rw [hrw, sub5_append_run hrunnw, tokensOf_run (by simp) hrunnw hsub5shape,
          tokensOf_run (by simp) hrunnw hxshape, ih _ hlen]

theorem go4_subset : ∀ (n : Nat) (bol : Bool) (l : List Char), l.length ≤ n →
    ∀ c ∈ go4 bol l, c ∈ l := by
  intro n
  induction n with
  | zero =>
    intro bol l hl c hc
    obtain rfl : l = [] := List.length_eq_zero.mp (Nat.le_zero.mp hl)
    rw [go4_nil] at hc
    simp at hc
  | succ n ih =>
    intro bol l hl c hc
    rcases l with - | ⟨c0, t⟩
    · rw [go4_nil] at hc
      simp at hc
    · have hrec : ∀ b, c ∈ c0 :: go4 b t → c ∈ c0 :: t := by
        intro b hmem
        rcases List.mem_cons.mp hmem with rfl | hmem
        · exact List.mem_cons_self c t
        · exact List.mem_cons_of_mem c0
            (ih b t (by simpa using Nat.le_of_succ_le_succ (by simpa using hl)) c hmem)
      rcases bol with - | -
      · rw [go4_false_cons] at hc
        exact hrec _ hc
      · rcases hm : matchPat4 (c0 :: t) with - | ⟨cs, r⟩
        · rw [go4_true_none hm] at hc
          exact hrec _ hc
        · rw [go4_true_some hm] at hc
          have hr := ih _ r (by
            have := matchPat4_rest_length hm
            simp only [List.length_cons] at hl this ⊢
            omega) c hc
          rw [← matchPat4_append hm]
          exact List.mem_append_right cs hr

theorem sub5_subset : ∀ (n : Nat) (l : List Char), l.length ≤ n →
    ∀ c ∈ sub5 l, c ∈ l := by
  intro n
  induction n with
  | zero =>
    intro l hl c hc
    obtain rfl : l = [] := List.length_eq_zero.mp (Nat.le_zero.mp hl)
    rw [sub5_nil] at hc
    simp at hc
  | succ n ih =>
    intro l hl c hc
    rcases l with - | ⟨c0, t⟩
    · rw [sub5_nil] at hc
      simp at hc
    · by_cases hcond : c0 = '\n' ∧ t.head? = some '\n'
      · rw [sub5_cons_collapse hcond] at hc
        rcases List.mem_cons.mp hc with rfl | hc
        · exact hcond.1 ▸ List.mem_cons_self c0 t
        · have hlen : (t.dropWhile (fun d => d = '\n')).length ≤ n := by
            have := (List.dropWhile_sublist (l := t) (fun d => decide (d = '\n'))).length_le
            simp only [List.length_cons] at hl
            omega
          exact List.mem_cons_of_mem c0
            ((List.dropWhile_sublist (fun d => decide (d = '\n'))).subset (ih _ hlen c hc))
      · rw [sub5_cons_keep hcond] at hc
        rcases List.mem_cons.mp hc with rfl | hc
        · exact List.mem_cons_self c t
        · exact List.mem_cons_of_mem c0
            (ih t (by simpa using Nat.le_of_succ_le_succ (by simpa using hl)) c hc)

theorem tokensOf_wrw {w1 run w3 : List Char} (hw1 : ∀ c ∈ w1, isSpaceP c)
    (hrun : run ≠ []) (hrunnw : ∀ c ∈ run, isSpaceP c = false)
    (hw3 : ∀ c ∈ w3, isSpaceP c) :
    tokensOf (w1 ++ run ++ w3) = [run] := by
  have hshape : w3 = [] ∨ ∃ c t, w3 = c :: t ∧ isSpaceP c := by
    rcases w3 with - | ⟨w, w3'⟩
    · exact Or.inl rfl
    · exact Or.inr ⟨w, w3', rfl, hw3 w (List.mem_cons_self w w3')⟩
  rw [List.append_assoc, tokensOf_ws_prefix hw1, tokensOf_run hrun hrunnw hshape,
    tokensOf_all_ws hw3]

theorem tokensOf_wlab {w1 lab w2 ds w3 : List Char} (hw1 : ∀ c ∈ w1, isSpaceP c)
    (hlabne : lab ≠ []) (hlabnw : ∀ c ∈ lab, isSpaceP c = false)
    (hw2ne : w2 ≠ []) (hw2 : ∀ c ∈ w2, isSpaceP c)
    (hds : ds ≠ []) (hdsnw : ∀ c ∈ ds, isSpaceP c = false)
    (hw3 : ∀ c ∈ w3, isSpaceP c) :
    tokensOf (w1 ++ lab ++ w2 ++ ds ++ w3) = [lab, ds] := by
  obtain ⟨w0, w2', rfl⟩ : ∃ w0 w2', w2 = w0 :: w2' := by
    rcases w2 with - | ⟨w0, w2'⟩
    · exact absurd rfl hw2ne
    · exact ⟨w0, w2', rfl⟩
  have hmid : tokensOf ((w0 :: w2') ++ ds ++ w3) = [ds] :=
    tokensOf_wrw hw2 hds hdsnw hw3
  calc tokensOf (w1 ++ lab ++ (w0 :: w2') ++ ds ++ w3)
      = tokensOf (lab ++ ((w0 :: w2') ++ ds ++ w3)) := by
        rw [show w1 ++ lab ++ (w0 :: w2') ++ ds ++ w3
            = w1 ++ (lab ++ ((w0 :: w2') ++ ds ++ w3)) by simp [List.append_assoc],
          tokensOf_ws_prefix hw1]
    _ = lab :: tokensOf ((w0 :: w2') ++ ds ++ w3) :=
        tokensOf_run hlabne hlabnw
          (Or.inr ⟨w0, w2' ++ ds ++ w3, by simp, hw2 w0 (List.mem_cons_self w0 w2')⟩)
    _ = [lab, ds] := by rw [hmid]

theorem label_nonws {lab : List Char}
    (h : lab = ['P', 'a', 'g', 'e'] ∨ lab = ['P', 'A', 'G', 'E']) :
    ∀ c ∈ lab, isSpaceP c = false := by
  rcases h with rfl | rfl <;> decide

/-- Core of the idempotence argument: the page-number pattern can never
match the whitespace-normalized rendering of the text that survives the
page-number removal pass.  Any such match would exhibit a whole line of
the pass's output that itself matches the pattern, and the scan never
leaves such a line behind. -/
theorem matchPat4_joinTokens_go4 (X : List Char) :
    matchPat4 (joinTokens (tokensOf (go4 true X))) = none := by
  have htsprops : ∀ tok ∈ tokensOf (go4 true X), tok ≠ [] ∧
      ∀ c ∈ tok, isSpaceP c = false :=
    fun tok htok => tokensOf_props (go4 true X).length (go4 true X) le_rfl tok htok
  have honl : '\n' ∉ joinTokens (tokensOf (go4 true X)) := by
    intro hmem
    rcases mem_joinTokens hmem with h' | ⟨tok, htok, hmem'⟩
    · exact absurd h' (by decide)
    · have := (htsprops tok htok).2 '\n' hmem'
      exact absurd this (by decide)
  by_contra hne
  obtain ⟨⟨cs, r⟩, hsome⟩ := Option.isSome_iff_exists.mp (Option.ne_none_iff_isSome.mp hne)
  obtain ⟨hcs, -⟩ := matchPat4_nlfree honl hsome
  subst hcs
  obtain ⟨w1, lab, w2, ds, w3, hdecomp, hw1, hlab, hw2, hds, hdig, hw3⟩ :=
    matchPat4_some_decomp hsome
  have hdsnw : ∀ c ∈ ds, isSpaceP c = false := fun c hc => digit_not_space (hdig c hc)
  have hts_eq : tokensOf (joinTokens (tokensOf (go4 true X))) = tokensOf (go4 true X) :=
    tokensOf_joinTokens htsprops
  have hflat : tokensOf (go4 true X)
      = ((linesOf (go4 true X)).map tokensOf).flatten :=
    tokensOf_flatten_lines (go4 true X).length (go4 true X) le_rfl
  have hnomatch : ∀ L ∈ linesOf (go4 true X), matchPat4 L = none :=
    go4_lines_unmatched X.length X le_rfl
  have line_single_absurd : ∀ L ∈ linesOf (go4 true X), tokensOf L = [ds] → False := by
    intro L hL htokL
    obtain ⟨v1, v2, rfl, hv1, hv2⟩ :=
      tokensOf_single_decomp L.length L le_rfl htokL
    have := matchPat4_isSome_of_digits hv1 hds hdig hv2
    rw [hnomatch _ hL] at this
    exact Bool.noConfusion this
  rcases hlab with rfl | hlab'
  · rw [List.append_nil] at hdecomp
    have hw12 : ∀ c ∈ w1 ++ w2, isSpaceP c := by
      intro c hc
      rcases List.mem_append.mp hc with hc | hc
      · exact hw1 c hc
      · exact hw2 c hc
    have htso : tokensOf (joinTokens (tokensOf (go4 true X))) = [ds] := by
      rw [hdecomp,
        show w1 ++ w2 ++ ds ++ w3 = (w1 ++ w2) ++ ds ++ w3 by simp [List.append_assoc]]
      exact tokensOf_wrw hw12 hds hdsnw hw3
    rw [hts_eq, hflat] at htso
    obtain ⟨tl, htl, htleq⟩ := flatten_eq_single htso
    obtain ⟨L, hL, rfl⟩ := List.mem_map.mp htl
    exact line_single_absurd L hL htleq
  · by_cases hw2e : w2 = []
    · subst hw2e
      rw [List.append_nil] at hdecomp
      have hlabnw := label_nonws hlab'
      have hlabne : lab ≠ [] := by
        rcases hlab' with rfl | rfl <;> simp
      have htso : tokensOf (joinTokens (tokensOf (go4 true X))) = [lab ++ ds] := by
        rw [hdecomp, show w1 ++ lab ++ ds ++ w3 = w1 ++ (lab ++ ds) ++ w3 by
          simp [List.append_assoc]]
        refine tokensOf_wrw hw1 (by simp [hlabne]) ?_ hw3
        intro c hc
        rcases List.mem_append.mp hc with hc | hc
        · exact hlabnw c hc
        · exact hdsnw c hc
      rw [hts_eq, hflat] at htso
      obtain ⟨tl, htl, htleq⟩ := flatten_eq_single htso
      obtain ⟨L, hL, rfl⟩ := List.mem_map.mp htl
      obtain ⟨v1, v2, rfl, hv1, hv2⟩ :=
        tokensOf_single_decomp L.length L le_rfl htleq
      have hsm := @matchPat4_isSome_of_decomp _ _ [] _ _ hv1 hlab' (by simp) hds hdig hv2
      rw [show v1 ++ lab ++ [] ++ ds ++ v2 = v1 ++ (lab ++ ds) ++ v2 by
        simp [List.append_assoc]] at hsm
      rw [hnomatch _ hL] at hsm
      exact Bool.noConfusion hsm
    · have hlabnw := label_nonws hlab'
      have hlabne : lab ≠ [] := by
        rcases hlab' with rfl | rfl <;> simp
      have htso : tokensOf (joinTokens (tokensOf (go4 true X))) = [lab, ds] := by
        rw [hdecomp]
        exact tokensOf_wlab hw1 hlabne hlabnw hw2e hw2 hds hdsnw hw3
      rw [hts_eq, hflat] at htso
      rcases flatten_eq_pair htso with ⟨tl, htl, htleq⟩ | ⟨tl, htl, htleq⟩
      · obtain ⟨L, hL, rfl⟩ := List.mem_map.mp htl
        obtain ⟨v1, v2, v3, rfl, hv1, hv2ne, hv2, hv3⟩ :=
          tokensOf_pair_decomp L.length L le_rfl htleq
        have hsm := matchPat4_isSome_of_decomp hv1 hlab' hv2 hds hdig hv3
        rw [hnomatch _ hL] at hsm
        exact Bool.noConfusion hsm
      · obtain ⟨L, hL, rfl⟩ := List.mem_map.mp htl
        exact line_single_absurd L hL htleq

theorem cleanChars_eq_joinTokens (l : List Char) :
    cleanChars l = joinTokens (tokensOf (go4 true (sub3 (sub2 (sub1 l))))) := by
  unfold cleanChars sub4
  rw [strip_cws (sub5 (go4 true (sub3 (sub2 (sub1 l))))).length _ le_rfl,
    tokensOf_sub5 (go4 true (sub3 (sub2 (sub1 l)))).length _ le_rfl]

theorem matchPat4_cleanChars (l : List Char) : matchPat4 (cleanChars l) = none := by
  rw [cleanChars_eq_joinTokens]
  exact matchPat4_joinTokens_go4 _

theorem cleanChars_no_newline (l : List Char) : '\n' ∉ cleanChars l := by
  rw [cleanChars_eq_joinTokens]
  intro hmem
  rcases mem_joinTokens hmem with h' | ⟨tok, htok, hmem'⟩
  · exact absurd h' (by decide)
  · have := (tokensOf_props (go4 true (sub3 (sub2 (sub1 l)))).length _ le_rfl tok htok).2
      '\n' hmem'
    exact absurd this (by decide)

/-- C1: the page-text cleaner is idempotent — cleaning an already cleaned
string returns it unchanged.  The cleaned output has no newlines, no
border glyphs, no doubled spaces, and never matches the page-number line
pattern, so every pass-two substitution is the identity and the final
whitespace collapse reproduces the string. -/
theorem claim_C1 (l : List Char) : cleanChars (cleanChars l) = cleanChars l := by
  have hrender := cleanChars_eq_joinTokens l
  have htsprops : ∀ tok ∈ tokensOf (go4 true (sub3 (sub2 (sub1 l)))), tok ≠ [] ∧
      ∀ c ∈ tok, isSpaceP c = false :=
    fun tok htok =>
      tokensOf_props (go4 true (sub3 (sub2 (sub1 l)))).length _ le_rfl tok htok
  have honl : '\n' ∉ cleanChars l := cleanChars_no_newline l
  have hnob : ∀ c ∈ cleanChars l, isBorderP c = false := by
    rw [hrender]
    intro c hc
    rcases mem_joinTokens hc with rfl | ⟨tok, htok, hmem⟩
    · decide
    · have hcT : c ∈ go4 true (sub3 (sub2 (sub1 l))) :=
        tokensOf_subset (go4 true (sub3 (sub2 (sub1 l)))).length _ le_rfl tok htok c hmem
      have hc3 : c ∈ sub3 (sub2 (sub1 l)) :=
        go4_subset (sub3 (sub2 (sub1 l))).length true _ le_rfl c hcT
      unfold sub3 at hc3
      simpa using (List.mem_filter.mp hc3).2
  have hchain : (cleanChars l).Chain' (fun a b => ¬(a = ' ' ∧ b = ' ')) := by
    rw [hrender]
    exact joinTokens_chain htsprops
  have h1 : sub1 (cleanChars l) = cleanChars l := sub1_eq_self_of_no_newline honl
  have h2 : sub2 (cleanChars l) = cleanChars l := sub2_eq_self_of_chain hchain
  have h3 : sub3 (cleanChars l) = cleanChars l := sub3_eq_self hnob
  have h4 : sub4 (cleanChars l) = cleanChars l := by
    unfold sub4
    exact go4_true_id (matchPat4_cleanChars l) honl
  calc cleanChars (cleanChars l)
      = stripP (cws (sub5 (sub4 (sub3 (sub2 (sub1 (cleanChars l))))))) := rfl
    _ = stripP (cws (sub5 (cleanChars l))) := by rw [h1, h2, h3, h4]
    _ = joinTokens (tokensOf (sub5 (cleanChars l))) :=
        strip_cws (sub5 (cleanChars l)).length _ le_rfl
    _ = joinTokens (tokensOf (cleanChars l)) := by
        rw [tokensOf_sub5 (cleanChars l).length _ le_rfl]
    _ = joinTokens (tokensOf (joinTokens (tokensOf (go4 true (sub3 (sub2 (sub1 l))))))) := by
        rw [hrender]
    _ = joinTokens (tokensOf (go4 true (sub3 (sub2 (sub1 l))))) := by
        rw [tokensOf_joinTokens htsprops]
    _ = cleanChars l := hrender.symm

/-- C4 (amended): a line consisting solely of an optional Page/PAGE label
and a number never survives cleaning as a page-number line — the cleaned
output never matches the page-number pattern of step 4.  (The original
claim, that such a line is always removed entirely, fails when the
de-hyphenation step first merges the line into a preceding line ending in
a hyphen; see the counterexample.) -/
theorem claim_C4 (l : List Char) : matchPat4 (cleanChars l) = none :=
  matchPat4_cleanChars l

/-- C4 counterexample: in `"word-\n12\nmore"` the text `"12"` is a line
consisting solely of a number, yet cleaning yields `"word12 more"` — the
de-hyphenation step merges the digits into the preceding word, so the
line is not removed from the cleaned output (which would be
`"word more"`). -/
theorem claim_C4_counterexample :
    ("word-\n12\nmore" : String) = "word-\n" ++ "12" ++ "\nmore" ∧
    clean_text "word-\n12\nmore" = "word12 more" ∧
    clean_text "word-\n12\nmore" ≠ "word more" := by
  have h1 : clean_text "word-\n12\nmore" = "word12 more" := by
    simp +decide [clean_text, cleanChars, sub1, sub2, sub3, sub4, go4, matchPat4, matchTail,
      stripLabel, splitLastNl, sub5, cws, stripP, rstripP, isSpaceP, isDigitP, isWordP,
      isBorderP]
  refine ⟨by decide, h1, ?_⟩
  rw [h1]
  decide

theorem claim_C10_witness :
    (([] : List (String × IndexSpec)).map Prod.fst).contains "financial-rag" = false ∧
    create_index_if_not_exists [] "financial-rag" upsertDimensionArgument
      = [("financial-rag", { dimension := 384, metric := "cosine" })] :=
  ⟨by decide, by simpa using (claim_C10 [] "financial-rag" 0 1).2.1 (by decide)⟩

end BankGPT
